import Mathlib

/-!
Verification of the Humming-to-song melody-retrieval core.

Shallow embedding conventions:
* Python floats are idealized as exact rationals (`ℚ`).
* The sentinel values `float("inf")` (similarity.py line 47) and
  `INF = 1e18` (similarity.py line 49) both stand for "unreachable /
  incomparable" and are modelled as `⊤` in `WithTop ℚ`.
* `math.log` and `math.sqrt` are transcendental; no claim below depends on
  any particular value of either, so they are carried as abstract function
  parameters (`lg : ℚ → ℚ` and `sqrtQ : ℕ → ℚ`).  Every theorem quantifies
  over them, hence holds in particular for the real logarithm and square
  root restricted to the rationals appearing in a run.
-/

namespace Humming

/-- NoteEvent from midi_io.py: pitch (MIDI integer), onset and duration in
seconds. -/
structure NoteEvent where
  pitch : ℤ
  onset : ℚ
  duration : ℚ
deriving DecidableEq, Repr

/-- MelodyRep from melody_repr.py: per-note pitches, and the three derived
sequences (coarse interval symbols, contour signs, inter-onset intervals). -/
structure MelodyRep where
  pitches : List ℤ
  intervals : List ℤ
  contour : List ℤ
  ioi : List ℚ
deriving DecidableEq, Repr

/-- `bin_interval_semitones` from melody_repr.py lines 15-38: the fixed
9-bin mapping from a raw semitone delta to a symbol in [-4, 4].  The final
`return 0` of the Python code is the catch-all `else` branch (it is
unreachable: the preceding cases cover every integer). -/
def bin_interval_semitones (semi : ℤ) : ℤ :=
  if semi ≤ -7 then -4
  else if semi = -6 ∨ semi = -5 then -3
  else if semi = -4 ∨ semi = -3 then -2
  else if semi = -2 ∨ semi = -1 then -1
  else if semi = 0 then 0
  else if semi = 1 ∨ semi = 2 then 1
  else if semi = 3 ∨ semi = 4 then 2
  else if semi = 5 ∨ semi = 6 then 3
  else if 7 ≤ semi then 4
  else 0

/-- `_contour_from_semitones` from melody_repr.py lines 41-46: sign of the
raw semitone delta. -/
def contour_from_semitones (semi : ℤ) : ℤ :=
  if 0 < semi then 1
  else if semi < 0 then -1
  else 0

/-- The epsilon floor 1e-6 used for inter-onset intervals and timing
ratios. -/
def eps : ℚ := 1 / 1000000

/-- `notes_to_rep` from melody_repr.py lines 49-63. -/
def notes_to_rep (notes : List NoteEvent) : MelodyRep :=
  if notes.length < 2 then
    { pitches := notes.map (·.pitch), intervals := [], contour := [], ioi := [] }
  else
    let pitches := notes.map (·.pitch)
    let onsets := notes.map (·.onset)
    let raw_intervals :=
      (List.range (pitches.length - 1)).map
        (fun i => pitches.getD (i + 1) 0 - pitches.getD i 0)
    { pitches := pitches
      intervals := raw_intervals.map bin_interval_semitones
      contour := raw_intervals.map contour_from_semitones
      ioi := (List.range (onsets.length - 1)).map
        (fun i => max eps (onsets.getD (i + 1) 0 - onsets.getD i 0)) }

/-- The weight/cost parameters of `dp_distance` (similarity.py lines 30-35).
The Python function takes them as keyword arguments with defaults; we bundle
them in a structure and expose the defaults as `defaultWeights`. -/
structure Weights where
  w_int : ℚ
  w_cont : ℚ
  w_time : ℚ
  w_abs : ℚ
  ins_cost : ℚ
  del_cost : ℚ
deriving DecidableEq, Repr

/-- The default weights of `dp_distance`: w_int=1.0, w_cont=0.7, w_time=0.15,
w_abs=0.2, ins_cost=0.8, del_cost=0.8. -/
def defaultWeights : Weights :=
  { w_int := 1, w_cont := 7/10, w_time := 3/20, w_abs := 1/5
    ins_cost := 4/5, del_cost := 4/5 }

/-- MatchResult from similarity.py lines 7-10.  `cost = ⊤` models the Python
`float("inf")`. -/
structure MatchResult where
  cost : WithTop ℚ
  end_j : ℤ
deriving DecidableEq, Repr

/-- `_interval_cost` from similarity.py line 13-14. -/
def interval_cost (a b : ℤ) : ℚ := |(a : ℚ) - (b : ℚ)| / 8

/-- `_contour_cost` from similarity.py line 17-18. -/
def contour_cost (a b : ℤ) : ℚ := if a = b then 0 else 1

/-- `_timing_ratio_cost` from similarity.py lines 21-24, with `math.log`
abstracted as `lg`. -/
def timing_ratio_cost (lg : ℚ → ℚ) (q_prev q s_prev s : ℚ) : ℚ :=
  let rq := q / max eps q_prev
  let rs := s / max eps s_prev
  |lg (max eps rq) - lg (max eps rs)|

/-- The `local(i, j)` closure of similarity.py lines 56-62, with `i`, `j`
1-indexed as in the Python loops. -/
def localCost (lg : ℚ → ℚ) (q s : MelodyRep) (w : Weights) (i j : ℕ) : ℚ :=
  let ic := interval_cost (q.intervals.getD (i-1) 0) (s.intervals.getD (j-1) 0)
  let cc := contour_cost (q.contour.getD (i-1) 0) (s.contour.getD (j-1) 0)
  let tc := if 2 ≤ i ∧ 2 ≤ j then
      timing_ratio_cost lg (q.ioi.getD (i-2) 0) (q.ioi.getD (i-1) 0)
        (s.ioi.getD (j-2) 0) (s.ioi.getD (j-1) 0)
    else 0
  w.w_int * ic + w.w_cont * cc + w.w_time * tc

/-- The DP table of similarity.py lines 49-91.  `dpD … i j` is the cell
`D[i][j]`.  Row 0 is initialized to 0 (line 53-54); every other cell of
column 0 keeps its initial sentinel `INF` (modelled `⊤`) because the inner
loop starts at j=1; an interior cell is the running minimum (starting from
the sentinel) over the match, insertion, deletion and, when applicable, the
two merge transitions. -/
def dpD (lg : ℚ → ℚ) (q s : MelodyRep) (w : Weights) : ℕ → ℕ → WithTop ℚ
  | 0, _ => 0
  | _ + 1, 0 => ⊤
  | i + 1, j + 1 =>
    let best1 := min ⊤ (dpD lg q s w i j + ((localCost lg q s w (i+1) (j+1) : ℚ) : WithTop ℚ))
    let best2 := min best1 (dpD lg q s w i (j+1) + ((w.ins_cost : ℚ) : WithTop ℚ))
    let best3 := min best2 (dpD lg q s w (i+1) j + ((w.del_cost : ℚ) : WithTop ℚ))
    let best4 :=
      if 1 ≤ i then
        let merged_q := max (-4) (min 4 (q.intervals.getD (i-1) 0 + q.intervals.getD i 0))
        let merged_c := q.contour.getD i 0
        let ic := interval_cost merged_q (s.intervals.getD j 0)
        let cc := contour_cost merged_c (s.contour.getD j 0)
        min best3 (dpD lg q s w (i-1) j + ((w.w_int * ic + w.w_cont * cc + 6/10 : ℚ) : WithTop ℚ))
      else best3
    let best5 :=
      if 1 ≤ j then
        let merged_s := max (-4) (min 4 (s.intervals.getD (j-1) 0 + s.intervals.getD j 0))
        let merged_c := s.contour.getD j 0
        let ic := interval_cost (q.intervals.getD i 0) merged_s
        let cc := contour_cost (q.contour.getD i 0) merged_c
        min best4 (dpD lg q s w i (j-1) + ((w.w_int * ic + w.w_cont * cc + 6/10 : ℚ) : WithTop ℚ))
      else best4
    best5

/-- The final scan of similarity.py lines 94-99: the running minimum over
`D[m][j]` for j = 1..n, recording `j - 1` (0-based) for the first strict
improvement. -/
def bestScan (lg : ℚ → ℚ) (q s : MelodyRep) (w : Weights) (m n : ℕ) : WithTop ℚ × ℤ :=
  (List.range n).foldl
    (fun st j =>
      if dpD lg q s w m (j+1) < st.1 then (dpD lg q s w m (j+1), (j : ℤ)) else st)
    (⊤, -1)

/-- Arithmetic mean of a list of integer pitches (similarity.py lines
104-105). -/
def meanQ (l : List ℤ) : ℚ := (l.sum : ℚ) / (l.length : ℚ)

/-- `dp_distance` from similarity.py lines 27-109: the empty-sequence guard,
the DP, the free-end scan, and the absolute-pitch tie-breaker. -/
def dp_distance (lg : ℚ → ℚ) (q s : MelodyRep) (w : Weights) : MatchResult :=
  let m := q.intervals.length
  let n := s.intervals.length
  if m = 0 ∨ n = 0 then ⟨⊤, -1⟩
  else
    let b := bestScan lg q s w m n
    let cost :=
      if q.pitches ≠ [] ∧ s.pitches ≠ [] then
        b.1 + (((w.w_abs * (|meanQ q.pitches - meanQ s.pitches| / 12) : ℚ)) : WithTop ℚ)
      else b.1
    ⟨cost, b.2⟩

/-- SongEntry from database.py lines 11-18. -/
structure SongEntry where
  song_id : String
  midi_path : String
  pitches : List ℤ
  intervals : List ℤ
  contour : List ℤ
  ioi : List ℚ
deriving DecidableEq, Repr

/-- The song-id derivation of database.py line 43:
`path.split("/")[-1].rsplit(".", 1)[0]` (basename without its last
extension). -/
def songIdOf (path : String) : String :=
  let base := (path.splitOn ("/")).getLastD path
  let parts := base.splitOn (".")
  if parts.length ≤ 1 then base
  else String.intercalate (".") parts.dropLast

/-- The fixed reason recorded by database.py line 40 for melodies that are
too short. -/
def tooFewReason : String := "No usable melody extracted (too few notes/intervals)."

/-- One iteration of the `build_db` loop (database.py lines 33-54).  The
external collaborator `extract_melody_notes` (out of scope per the spec) is
abstracted: each input path comes paired with either its extracted note
list or the message of the exception it raised (the `except` branch of
lines 52-54 formats the latter). -/
def buildStep (acc : List SongEntry × List (String × String))
    (inp : String × Except String (List NoteEvent)) :
    List SongEntry × List (String × String) :=
  match inp.2 with
  | .error e => (acc.1, acc.2 ++ [(inp.1, e)])
  | .ok notes =>
    let rep := notes_to_rep notes
    if rep.intervals.length < 2 then
      (acc.1, acc.2 ++ [(inp.1, tooFewReason)])
    else
      (acc.1 ++ [{ song_id := songIdOf inp.1, midi_path := inp.1,
                   pitches := rep.pitches, intervals := rep.intervals,
                   contour := rep.contour, ioi := rep.ioi }], acc.2)

/-- `build_db` from database.py lines 21-64: fold the step over all inputs,
starting from an empty database and an empty rejection log. -/
def build_db (inputs : List (String × Except String (List NoteEvent))) :
    List SongEntry × List (String × String) :=
  inputs.foldl buildStep ([], [])

/-- `load_db` from database.py lines 73-76, applied to an already-decoded
JSON payload: `[SongEntry(**x) for x in payload]` reconstructs each record
from its fields, performing no validation whatsoever. -/
def load_db (payload : List SongEntry) : List SongEntry :=
  payload.map (fun x =>
    { song_id := x.song_id, midi_path := x.midi_path, pitches := x.pitches,
      intervals := x.intervals, contour := x.contour, ioi := x.ioi })

/-- `entry_to_rep` from database.py lines 79-85. -/
def entry_to_rep (e : SongEntry) : MelodyRep :=
  { pitches := e.pitches, intervals := e.intervals,
    contour := e.contour, ioi := e.ioi }

/-- The length invariant of spec §3, stated for a corpus entry: with N≥2
pitches the three derived sequences have length N−1, with N<2 they are all
empty.  (Spec-side definition, used to state claim C4; the loading code has
no corresponding check.) -/
def lengthInvariant (e : SongEntry) : Prop :=
  if 2 ≤ e.pitches.length then
    e.intervals.length = e.pitches.length - 1 ∧
    e.contour.length = e.pitches.length - 1 ∧
    e.ioi.length = e.pitches.length - 1
  else
    e.intervals = [] ∧ e.contour = [] ∧ e.ioi = []

instance (e : SongEntry) : Decidable (lengthInvariant e) := by
  unfold lengthInvariant; infer_instance

/-- The window-start generation loop of app.py lines 103-107:
`s = 0.0; while s + win <= duration: starts.append(s); s += hop`.
Termination requires `0 < hop` (the Streamlit slider enforces hop ≥ 1). -/
def genStartsAux (win hop duration : ℚ) (hhop : 0 < hop) (s : ℚ) : List ℚ :=
  if _h : s + win ≤ duration then s :: genStartsAux win hop duration hhop (s + hop)
  else []
termination_by (⌈(duration - win - s) / hop⌉ + 1).toNat
decreasing_by
  have hr : 0 ≤ (duration - win - s) / hop :=
    div_nonneg (by linarith) (le_of_lt hhop)
  have hstep : (duration - win - (s + hop)) / hop = (duration - win - s) / hop - 1 := by
    rw [show duration - win - (s + hop) = duration - win - s - hop by ring,
      sub_div, div_self (ne_of_gt hhop)]
  have hc : 0 ≤ ⌈(duration - win - s) / hop⌉ := Int.ceil_nonneg hr
  rw [hstep, Int.ceil_sub_one]
  omega

/-- The complete starts list of app.py lines 103-109, including the
single-window fallback when the clip is shorter than one window. -/
def scanStarts (win hop duration : ℚ) (hhop : 0 < hop) : List ℚ :=
  let g := genStartsAux win hop duration hhop 0
  if g = [] then [0] else g

/-- The four per-song running-best dictionaries of app.py lines 111-114,
modelled as total maps (the code only ever reads them at song ids present in
the db, where they agree with the dictionaries). -/
structure ScanState where
  best_score : String → WithTop ℚ
  best_cost : String → WithTop ℚ
  best_start : String → Option ℚ
  best_len : String → ℕ

/-- Initial scan state (app.py lines 111-114): every song starts at score
`inf`, cost `inf`, start `None`, length 0. -/
def initState : ScanState :=
  { best_score := fun _ => ⊤, best_cost := fun _ => ⊤,
    best_start := fun _ => none, best_len := fun _ => 0 }

/-- Division of a possibly-infinite cost by a real (app.py line 127,
`res.cost / math.sqrt(L)`): infinity divided by a positive number stays
infinity. -/
def divW (c : WithTop ℚ) (d : ℚ) : WithTop ℚ := c.map (· / d)

/-- The inner per-song loop of app.py lines 123-132 for one usable window:
align the window against every db entry and fold the strict-improvement
update into the scan state. -/
def scanWindow (lg : ℚ → ℚ) (sqrtQ : ℕ → ℚ) (db : List SongEntry)
    (q_rep : MelodyRep) (start_s : ℚ) (st : ScanState) : ScanState :=
  let L := q_rep.intervals.length
  db.foldl
    (fun st2 entry =>
      let sid := entry.song_id
      let res := dp_distance lg q_rep (entry_to_rep entry) defaultWeights
      let score := divW res.cost (sqrtQ L)
      if score < st2.best_score sid then
        { best_score := fun x => if x = sid then score else st2.best_score x
          best_cost := fun x => if x = sid then res.cost else st2.best_cost x
          best_start := fun x => if x = sid then some start_s else st2.best_start x
          best_len := fun x => if x = sid then L else st2.best_len x }
      else st2)
    st

/-- The window loop of app.py lines 117-132: windows with fewer than 12
intervals are skipped (`continue`), usable ones bump the usable counter and
are scored against every song. -/
def runScan (lg : ℚ → ℚ) (sqrtQ : ℕ → ℚ) (windowRep : ℚ → MelodyRep)
    (db : List SongEntry) (starts : List ℚ) : ScanState × ℕ :=
  starts.foldl
    (fun acc start_s =>
      let q_rep := windowRep start_s
      if q_rep.intervals.length < 12 then acc
      else (scanWindow lg sqrtQ db q_rep start_s acc.1, acc.2 + 1))
    (initState, 0)

/-- The similarity formula of app.py line 136,
`max(0.0, 1.0 - best_score[sid] / 5.0) * 100`: an infinite best score yields
`max(0, -inf) * 100 = 0`. -/
def simOf (s : WithTop ℚ) : ℚ :=
  if s = ⊤ then 0 else max 0 (1 - s.untop' 0 / 5) * 100

/-- One entry of the ranked list built by app.py lines 134-137:
(similarity, song_id, best_cost, best_len, best_start). -/
abbrev RankTuple : Type := ℚ × String × WithTop ℚ × ℕ × Option ℚ

/-- The ranked list of app.py lines 134-137, before sorting.  The Python
code iterates the keys of `best_score`, whose dict insertion order is the db
order when song ids are unique (the spec requires unique song ids). -/
def rankedListOf (st : ScanState) (db : List SongEntry) : List RankTuple :=
  db.map (fun e =>
    (simOf (st.best_score e.song_id), e.song_id, st.best_cost e.song_id,
     st.best_len e.song_id, st.best_start e.song_id))

/-- Stable descending insertion (by the similarity component): the element
`x` is placed before the first element whose key is not larger, so an
earlier element precedes later elements with an equal key. -/
def insertDesc (x : RankTuple) : List RankTuple → List RankTuple
  | [] => [x]
  | y :: ys => if x.1 < y.1 then y :: insertDesc x ys else x :: y :: ys

/-- The sort of app.py line 139, `ranked.sort(reverse=True, key=x[0])`:
Python `list.sort` is a stable descending sort by similarity, and a stable
sort's output is uniquely determined, so stable insertion sort models it
exactly. -/
def sortDesc : List RankTuple → List RankTuple
  | [] => []
  | x :: xs => insertDesc x (sortDesc xs)

/-- `find_windowed_matches` from app.py lines 99-140, with the external
collaborators abstracted: `duration0` is `librosa.get_duration`'s value and
`windowRep start` is `audio_window_to_rep(audio_path, start, win, 16000)`.
Returns (top-k ranked list, windows generated, windows usable). -/
def find_windowed_matches (lg : ℚ → ℚ) (sqrtQ : ℕ → ℚ)
    (windowRep : ℚ → MelodyRep) (duration0 : ℚ) (db : List SongEntry)
    (win hop max_sec : ℚ) (hhop : 0 < hop) (topk : ℕ) :
    List RankTuple × ℕ × ℕ :=
  let duration := min duration0 max_sec
  let starts := scanStarts win hop duration hhop
  let sc := runScan lg sqrtQ windowRep db starts
  let ranked := sortDesc (rankedListOf sc.1 db)
  (ranked.take topk, starts.length, sc.2)

/-! ## Helper lemmas -/

theorem getD_range_map {α : Type} (f : ℕ → α) (n k : ℕ) (d : α) (hk : k < n) :
    ((List.range n).map f).getD k d = f k := by
  rw [List.getD_eq_getElem?_getD, List.getElem?_map, List.getElem?_range hk]
  rfl

theorem getD_map_of_lt {α β : Type} (g : α → β) (l : List α) (k : ℕ) (d : β)
    (d' : α) (hk : k < l.length) :
    (l.map g).getD k d = g (l.getD k d') := by
  rw [List.getD_eq_getElem?_getD, List.getElem?_map,
    List.getD_eq_getElem?_getD, List.getElem?_eq_getElem hk]
  rfl

theorem getD_map_range_map {α β : Type} (f : ℕ → α) (g : α → β) (n k : ℕ)
    (d : β) (hk : k < n) :
    (((List.range n).map f).map g).getD k d = g (f k) := by
  rw [List.getD_eq_getElem?_getD, List.getElem?_map, List.getElem?_map,
    List.getElem?_range hk]
  rfl

/-- The 9-bin table of spec §4.1, proved of `bin_interval_semitones`. -/
theorem bin_table (d : ℤ) :
    (d ≤ -7 → bin_interval_semitones d = -4) ∧
    ((d = -6 ∨ d = -5) → bin_interval_semitones d = -3) ∧
    ((d = -4 ∨ d = -3) → bin_interval_semitones d = -2) ∧
    ((d = -2 ∨ d = -1) → bin_interval_semitones d = -1) ∧
    (d = 0 → bin_interval_semitones d = 0) ∧
    ((d = 1 ∨ d = 2) → bin_interval_semitones d = 1) ∧
    ((d = 3 ∨ d = 4) → bin_interval_semitones d = 2) ∧
    ((d = 5 ∨ d = 6) → bin_interval_semitones d = 3) ∧
    (7 ≤ d → bin_interval_semitones d = 4) := by
  unfold bin_interval_semitones
  split_ifs <;> omega

/-- Exhaustive case analysis of the bin table: every integer delta falls in
exactly one row, with the corresponding symbol. -/
theorem bin_cases (d : ℤ) :
    (d ≤ -7 ∧ bin_interval_semitones d = -4) ∨
    ((d = -6 ∨ d = -5) ∧ bin_interval_semitones d = -3) ∨
    ((d = -4 ∨ d = -3) ∧ bin_interval_semitones d = -2) ∨
    ((d = -2 ∨ d = -1) ∧ bin_interval_semitones d = -1) ∨
    (d = 0 ∧ bin_interval_semitones d = 0) ∨
    ((d = 1 ∨ d = 2) ∧ bin_interval_semitones d = 1) ∨
    ((d = 3 ∨ d = 4) ∧ bin_interval_semitones d = 2) ∨
    ((d = 5 ∨ d = 6) ∧ bin_interval_semitones d = 3) ∨
    (7 ≤ d ∧ bin_interval_semitones d = 4) := by
  obtain ⟨t1, t2, t3, t4, t5, t6, t7, t8, t9⟩ := bin_table d
  have comp : d ≤ -7 ∨ (d = -6 ∨ d = -5) ∨ (d = -4 ∨ d = -3) ∨
      (d = -2 ∨ d = -1) ∨ d = 0 ∨ (d = 1 ∨ d = 2) ∨ (d = 3 ∨ d = 4) ∨
      (d = 5 ∨ d = 6) ∨ 7 ≤ d := by omega
  rcases comp with h | h | h | h | h | h | h | h | h
  · exact Or.inl ⟨h, t1 h⟩
  · exact Or.inr (Or.inl ⟨h, t2 h⟩)
  · exact Or.inr (Or.inr (Or.inl ⟨h, t3 h⟩))
  · exact Or.inr (Or.inr (Or.inr (Or.inl ⟨h, t4 h⟩)))
  · exact Or.inr (Or.inr (Or.inr (Or.inr (Or.inl ⟨h, t5 h⟩))))
  · exact Or.inr (Or.inr (Or.inr (Or.inr (Or.inr (Or.inl ⟨h, t6 h⟩)))))
  · exact Or.inr (Or.inr (Or.inr (Or.inr (Or.inr (Or.inr (Or.inl ⟨h, t7 h⟩))))))
  · exact Or.inr (Or.inr (Or.inr (Or.inr (Or.inr (Or.inr (Or.inr (Or.inl ⟨h, t8 h⟩)))))))
  · exact Or.inr (Or.inr (Or.inr (Or.inr (Or.inr (Or.inr (Or.inr (Or.inr ⟨h, t9 h⟩)))))))

/-- Exhaustive case analysis of the contour sign function. -/
theorem contour_cases (d : ℤ) :
    (0 < d ∧ contour_from_semitones d = 1) ∨
    (d < 0 ∧ contour_from_semitones d = -1) ∨
    (d = 0 ∧ contour_from_semitones d = 0) := by
  unfold contour_from_semitones
  split_ifs <;> omega

theorem bin_mono (d1 d2 : ℤ) (h : d1 < d2) :
    bin_interval_semitones d1 ≤ bin_interval_semitones d2 := by
  have c1 := bin_cases d1
  have c2 := bin_cases d2
  omega

theorem contour_sign_bin (d : ℤ) :
    (contour_from_semitones d = 1 ↔ 0 < bin_interval_semitones d) ∧
    (contour_from_semitones d = -1 ↔ bin_interval_semitones d < 0) ∧
    (contour_from_semitones d = 0 ↔ bin_interval_semitones d = 0) := by
  have hb := bin_cases d
  have hc := contour_cases d
  refine ⟨?_, ?_, ?_⟩ <;> omega

theorem notes_to_rep_long (notes : List NoteEvent) (h : 2 ≤ notes.length) :
    notes_to_rep notes =
      { pitches := notes.map (·.pitch)
        intervals := ((List.range (notes.length - 1)).map
          (fun i => (notes.map (·.pitch)).getD (i + 1) 0 -
            (notes.map (·.pitch)).getD i 0)).map bin_interval_semitones
        contour := ((List.range (notes.length - 1)).map
          (fun i => (notes.map (·.pitch)).getD (i + 1) 0 -
            (notes.map (·.pitch)).getD i 0)).map contour_from_semitones
        ioi := (List.range (notes.length - 1)).map
          (fun i => max eps ((notes.map (·.onset)).getD (i + 1) 0 -
            (notes.map (·.onset)).getD i 0)) } := by
  unfold notes_to_rep
  rw [if_neg (by omega)]
  simp

/-- The contour table: sign of the raw delta. -/
theorem contour_table (d : ℤ) :
    (0 < d → contour_from_semitones d = 1) ∧
    (d < 0 → contour_from_semitones d = -1) ∧
    (d = 0 → contour_from_semitones d = 0) := by
  have hc := contour_cases d
  refine ⟨?_, ?_, ?_⟩ <;> omega

theorem notes_to_rep_short (notes : List NoteEvent) (h : notes.length < 2) :
    notes_to_rep notes =
      { pitches := notes.map (·.pitch), intervals := [], contour := [], ioi := [] } := by
  unfold notes_to_rep
  rw [if_pos h]

/-! ## Claim C6 -/

/-- C6: for N ≥ 2 notes, `notes_to_rep` returns the notes' pitches and three
derived sequences of length N−1, where each interval symbol follows the
fixed 9-bin table applied to the raw semitone delta, each contour entry is
the sign of the raw delta, and each ioi entry is the onset difference
floored at 1e−6; the bin mapping is monotonic in the delta; for N < 2 the
three derived sequences are empty and pitches are the notes' pitches. -/
theorem C6_notes_to_rep (notes : List NoteEvent) :
    (2 ≤ notes.length →
      (notes_to_rep notes).pitches = notes.map (·.pitch) ∧
      (notes_to_rep notes).pitches.length = notes.length ∧
      (notes_to_rep notes).intervals.length = notes.length - 1 ∧
      (notes_to_rep notes).contour.length = notes.length - 1 ∧
      (notes_to_rep notes).ioi.length = notes.length - 1 ∧
      (∀ k, k < notes.length - 1 → ∀ d : ℤ,
        d = (notes_to_rep notes).pitches.getD (k + 1) 0 -
            (notes_to_rep notes).pitches.getD k 0 →
        ((d ≤ -7 → (notes_to_rep notes).intervals.getD k 0 = -4) ∧
         ((d = -6 ∨ d = -5) → (notes_to_rep notes).intervals.getD k 0 = -3) ∧
         ((d = -4 ∨ d = -3) → (notes_to_rep notes).intervals.getD k 0 = -2) ∧
         ((d = -2 ∨ d = -1) → (notes_to_rep notes).intervals.getD k 0 = -1) ∧
         (d = 0 → (notes_to_rep notes).intervals.getD k 0 = 0) ∧
         ((d = 1 ∨ d = 2) → (notes_to_rep notes).intervals.getD k 0 = 1) ∧
         ((d = 3 ∨ d = 4) → (notes_to_rep notes).intervals.getD k 0 = 2) ∧
         ((d = 5 ∨ d = 6) → (notes_to_rep notes).intervals.getD k 0 = 3) ∧
         (7 ≤ d → (notes_to_rep notes).intervals.getD k 0 = 4)) ∧
        ((0 < d → (notes_to_rep notes).contour.getD k 0 = 1) ∧
         (d < 0 → (notes_to_rep notes).contour.getD k 0 = -1) ∧
         (d = 0 → (notes_to_rep notes).contour.getD k 0 = 0)) ∧
        (notes_to_rep notes).ioi.getD k 0 =
          max eps ((notes.map (·.onset)).getD (k + 1) 0 -
            (notes.map (·.onset)).getD k 0))) ∧
    (notes.length < 2 →
      (notes_to_rep notes).pitches = notes.map (·.pitch) ∧
      (notes_to_rep notes).intervals = [] ∧
      (notes_to_rep notes).contour = [] ∧
      (notes_to_rep notes).ioi = []) ∧
    (∀ d1 d2 : ℤ, d1 < d2 →
      bin_interval_semitones d1 ≤ bin_interval_semitones d2) := by
  refine ⟨fun h2 => ?_, fun hlt => ?_, fun d1 d2 h => bin_mono d1 d2 h⟩
  · rw [notes_to_rep_long notes h2]
    refine ⟨rfl, by simp, by simp, by simp, by simp, fun k hk d hd => ?_⟩
    have hint : (((List.range (notes.length - 1)).map
        (fun i => (notes.map (·.pitch)).getD (i + 1) 0 -
          (notes.map (·.pitch)).getD i 0)).map bin_interval_semitones).getD k 0 =
        bin_interval_semitones d := by
      rw [getD_map_range_map _ _ _ _ _ hk, hd]
    have hcon : (((List.range (notes.length - 1)).map
        (fun i => (notes.map (·.pitch)).getD (i + 1) 0 -
          (notes.map (·.pitch)).getD i 0)).map contour_from_semitones).getD k 0 =
        contour_from_semitones d := by
      rw [getD_map_range_map _ _ _ _ _ hk, hd]
    refine ⟨?_, ?_, ?_⟩
    · rw [hint]; exact bin_table d
    · rw [hcon]; exact contour_table d
    · exact getD_range_map _ _ _ _ hk
  · rw [notes_to_rep_short notes hlt]
    exact ⟨rfl, rfl, rfl, rfl⟩

/-- Witness for C6: a concrete three-note melody with deltas 7 and −7. -/
theorem C6_witness :
    (notes_to_rep [⟨60, 0, 1⟩, ⟨67, 1, 1⟩, ⟨60, 3, 1⟩]).intervals.length = 2 ∧
    (notes_to_rep [⟨60, 0, 1⟩, ⟨67, 1, 1⟩, ⟨60, 3, 1⟩]).intervals.getD 0 0 = 4 ∧
    (notes_to_rep [⟨60, 0, 1⟩, ⟨67, 1, 1⟩, ⟨60, 3, 1⟩]).contour.getD 1 0 = -1 ∧
    bin_interval_semitones (-3) ≤ bin_interval_semitones 5 := by
  have h := C6_notes_to_rep [⟨60, 0, 1⟩, ⟨67, 1, 1⟩, ⟨60, 3, 1⟩]
  have h1 := h.1 (by decide)
  refine ⟨h1.2.2.1, ?_, ?_, h.2.2 (-3) 5 (by decide)⟩
  · exact ((h1.2.2.2.2.2 0 (by decide) 7 (by decide)).1.2.2.2.2.2.2.2.2) (by decide)
  · exact ((h1.2.2.2.2.2 1 (by decide) (-7) (by decide)).2.1.2.1) (by decide)

/-! ## Claim C10 -/

/-- C10: in every built representation, the contour entry is exactly the
sign of the binned interval symbol at every position. -/
theorem C10_contour_sign (notes : List NoteEvent) (k : ℕ)
    (hk : k < (notes_to_rep notes).intervals.length) :
    ((notes_to_rep notes).contour.getD k 0 = 1 ↔
      0 < (notes_to_rep notes).intervals.getD k 0) ∧
    ((notes_to_rep notes).contour.getD k 0 = -1 ↔
      (notes_to_rep notes).intervals.getD k 0 < 0) ∧
    ((notes_to_rep notes).contour.getD k 0 = 0 ↔
      (notes_to_rep notes).intervals.getD k 0 = 0) := by
  by_cases hlen : notes.length < 2
  · rw [notes_to_rep_short notes hlen] at hk
    simp at hk
  · have h2 : 2 ≤ notes.length := by omega
    rw [notes_to_rep_long notes h2] at hk ⊢
    simp only [List.length_map, List.length_range] at hk
    dsimp only
    rw [getD_map_range_map
        (fun i => (notes.map (·.pitch)).getD (i + 1) 0 - (notes.map (·.pitch)).getD i 0)
        contour_from_semitones _ _ _ hk,
      getD_map_range_map
        (fun i => (notes.map (·.pitch)).getD (i + 1) 0 - (notes.map (·.pitch)).getD i 0)
        bin_interval_semitones _ _ _ hk]
    exact contour_sign_bin _

/-- Witness for C10: two notes a whole tone apart. -/
theorem C10_witness :
    ((notes_to_rep [⟨60, 0, 0⟩, ⟨62, 1, 0⟩]).contour.getD 0 0 = 1 ↔
      0 < (notes_to_rep [⟨60, 0, 0⟩, ⟨62, 1, 0⟩]).intervals.getD 0 0) :=
  (C10_contour_sign [⟨60, 0, 0⟩, ⟨62, 1, 0⟩] 0 (by decide)).1

/-! ## Claim C9 -/

/-- C9: the timing cost is invariant under uniform tempo scaling — when the
candidate IOIs are the query IOIs scaled by c > 0 and neither denominator is
floored (both at least 1e−6), the timing cost term is exactly 0 (for any
model of `math.log`, since the two ratio arguments coincide). -/
theorem C9_timing_tempo_invariant (lg : ℚ → ℚ) (c q_prev q : ℚ)
    (hc : 0 < c) (h1 : eps ≤ q_prev) (h2 : eps ≤ c * q_prev) :
    timing_ratio_cost lg q_prev q (c * q_prev) (c * q) = 0 := by
  unfold timing_ratio_cost
  rw [max_eq_right h1, max_eq_right h2,
    mul_div_mul_left q q_prev (ne_of_gt hc)]
  simp

/-- Witness for C9 at c = 2, (q_prev, q) = (1, 3). -/
theorem C9_witness : timing_ratio_cost id 1 3 (2 * 1) (2 * 3) = 0 :=
  C9_timing_tempo_invariant id 2 1 3 (by norm_num) (by norm_num [eps])
    (by norm_num [eps])

/-! ## Claim C5 -/

/-- The per-window, per-song result record reduced by the fold of app.py
lines 127-132: the normalized score together with the cost, window length
and start offset that achieved it. -/
structure WindowResult where
  score : WithTop ℚ
  cost : WithTop ℚ
  len : ℕ
  start : Option ℚ
deriving DecidableEq, Repr

/-- The "keep minimum score" combine of app.py lines 128-132: `a` is the
current (first-seen) best, `b` the new window result; `b` replaces `a` only
on strict improvement of the normalized score. -/
def keepMin (a b : WindowResult) : WindowResult :=
  if b.score < a.score then b else a

/-- C5 counterexample: on two results with equal scores but different
payloads, the combine keeps whichever came first, so it is not commutative
and the combined result depends on the argument order. -/
theorem C5_counterexample :
    keepMin ⟨((1 : ℚ) : WithTop ℚ), ((1 : ℚ) : WithTop ℚ), 13, some 0⟩
        ⟨((1 : ℚ) : WithTop ℚ), ((2 : ℚ) : WithTop ℚ), 13, some 5⟩ ≠
      keepMin ⟨((1 : ℚ) : WithTop ℚ), ((2 : ℚ) : WithTop ℚ), 13, some 5⟩
        ⟨((1 : ℚ) : WithTop ℚ), ((1 : ℚ) : WithTop ℚ), 13, some 0⟩ := by
  decide

/-- C5 amended: the keep-minimum combine is associative, and it is
commutative on results with distinct scores; hence the reduced result is
order-independent whenever no two usable windows tie exactly on the
normalized score (on a tie, the first-seen result wins, so full
commutativity fails — see the counterexample). -/
theorem C5_keepMin_assoc_comm :
    (∀ a b c : WindowResult, keepMin (keepMin a b) c = keepMin a (keepMin b c)) ∧
    (∀ a b : WindowResult, a.score ≠ b.score → keepMin a b = keepMin b a) := by
  constructor
  · intro a b c
    unfold keepMin
    by_cases h1 : b.score < a.score
    · by_cases h2 : c.score < b.score
      · rw [if_pos h1, if_pos h2, if_pos (lt_trans h2 h1)]
      · rw [if_pos h1, if_neg h2, if_pos h1]
    · by_cases h2 : c.score < b.score
      · rw [if_neg h1, if_pos h2]
      · rw [if_neg h1, if_neg h2, if_neg h1,
          if_neg (not_lt.mpr (le_trans (not_lt.mp h1) (not_lt.mp h2)))]
  · intro a b hne
    unfold keepMin
    rcases lt_trichotomy a.score b.score with h | h | h
    · rw [if_neg (lt_asymm h), if_pos h]
    · exact absurd h hne
    · rw [if_pos h, if_neg (lt_asymm h)]

/-- Witness for C5 (amended): associativity and distinct-score
commutativity applied at concrete results. -/
theorem C5_witness :
    keepMin (keepMin ⟨((1 : ℚ) : WithTop ℚ), ⊤, 12, none⟩
        ⟨((2 : ℚ) : WithTop ℚ), ⊤, 13, some 1⟩) ⟨((3 : ℚ) : WithTop ℚ), ⊤, 14, some 2⟩ =
      keepMin ⟨((1 : ℚ) : WithTop ℚ), ⊤, 12, none⟩
        (keepMin ⟨((2 : ℚ) : WithTop ℚ), ⊤, 13, some 1⟩ ⟨((3 : ℚ) : WithTop ℚ), ⊤, 14, some 2⟩) ∧
    keepMin ⟨((1 : ℚ) : WithTop ℚ), ⊤, 12, none⟩ ⟨((2 : ℚ) : WithTop ℚ), ⊤, 13, some 1⟩ =
      keepMin ⟨((2 : ℚ) : WithTop ℚ), ⊤, 13, some 1⟩ ⟨((1 : ℚ) : WithTop ℚ), ⊤, 12, none⟩ :=
  ⟨C5_keepMin_assoc_comm.1 _ _ _, C5_keepMin_assoc_comm.2 _ _ (by decide)⟩

/-! ## Claim C4 -/

/-- The songs `build_db` keeps: inputs whose extraction succeeded with at
least 2 intervals. -/
def expectedDb (inputs : List (String × Except String (List NoteEvent))) :
    List SongEntry :=
  inputs.filterMap (fun inp =>
    match inp.2 with
    | .error _ => none
    | .ok notes =>
      let rep := notes_to_rep notes
      if rep.intervals.length < 2 then none
      else some { song_id := songIdOf inp.1, midi_path := inp.1,
                  pitches := rep.pitches, intervals := rep.intervals,
                  contour := rep.contour, ioi := rep.ioi })

/-- The (path, reason) log `build_db` writes: inputs whose extraction raised,
or whose melody was too short. -/
def expectedBad (inputs : List (String × Except String (List NoteEvent))) :
    List (String × String) :=
  inputs.filterMap (fun inp =>
    match inp.2 with
    | .error e => some (inp.1, e)
    | .ok notes =>
      if (notes_to_rep notes).intervals.length < 2 then some (inp.1, tooFewReason)
      else none)

theorem build_db_foldl (inputs : List (String × Except String (List NoteEvent)))
    (acc : List SongEntry × List (String × String)) :
    inputs.foldl buildStep acc = (acc.1 ++ expectedDb inputs, acc.2 ++ expectedBad inputs) := by
  induction inputs generalizing acc with
  | nil => simp [expectedDb, expectedBad]
  | cons x xs ih =>
    rw [List.foldl_cons, ih]
    cases hx : x.2 with
    | error e =>
      simp [expectedDb, expectedBad, buildStep, hx]
    | ok notes =>
      by_cases hlen : (notes_to_rep notes).intervals.length < 2
      · simp [expectedDb, expectedBad, buildStep, hx, hlen]
      · simp [expectedDb, expectedBad, buildStep, hx, hlen]

theorem rep_lengths (notes : List NoteEvent) :
    (notes_to_rep notes).pitches.length = notes.length ∧
    ((2 ≤ notes.length →
      (notes_to_rep notes).intervals.length = notes.length - 1 ∧
      (notes_to_rep notes).contour.length = notes.length - 1 ∧
      (notes_to_rep notes).ioi.length = notes.length - 1)) ∧
    (notes.length < 2 →
      (notes_to_rep notes).intervals = [] ∧
      (notes_to_rep notes).contour = [] ∧
      (notes_to_rep notes).ioi = []) := by
  by_cases h : notes.length < 2
  · rw [notes_to_rep_short notes h]
    exact ⟨by simp, fun h2 => absurd h2 (by omega), fun _ => ⟨rfl, rfl, rfl⟩⟩
  · rw [notes_to_rep_long notes (by omega)]
    exact ⟨by simp, fun _ => ⟨by simp, by simp, by simp⟩, fun hlt => absurd hlt h⟩

/-- C4 counterexample: `load_db` accepts (and returns unchanged) an entry
with 2 pitches but empty derived sequences, which violates the §3 length
invariant — loading performs no validation and rejects nothing. -/
theorem C4_counterexample :
    load_db [⟨"bad", "p/bad.mid", [60, 62], [], [], []⟩] =
      [⟨"bad", "p/bad.mid", [60, 62], [], [], []⟩] ∧
    ¬ lengthInvariant ⟨"bad", "p/bad.mid", [60, 62], [], [], []⟩ :=
  ⟨rfl, by decide⟩

/-- C4 amended: corpus loading itself does not validate the length
invariant (`load_db` returns every decoded entry unchanged); instead,
`build_db` only ever produces entries that satisfy the invariant by
construction, rejects — with a descriptive reason, not a crash — every
input whose note extraction fails or whose melody yields fewer than 2
intervals, and continues processing the remaining inputs (one entry per
input ends up either in the database or in the rejection log). -/
theorem expected_lengths (inputs : List (String × Except String (List NoteEvent))) :
    (expectedDb inputs).length + (expectedBad inputs).length = inputs.length := by
  induction inputs with
  | nil => rfl
  | cons x xs ih =>
    cases hx : x.2 with
    | error e =>
      simp only [expectedDb, expectedBad, List.filterMap_cons, hx] at ih ⊢
      simp only [List.length_cons]
      omega
    | ok notes =>
      by_cases hlen : (notes_to_rep notes).intervals.length < 2
      · simp only [expectedDb, expectedBad, List.filterMap_cons, hx, if_pos hlen] at ih ⊢
        simp only [List.length_cons]
        omega
      · simp only [expectedDb, expectedBad, List.filterMap_cons, hx, if_neg hlen] at ih ⊢
        simp only [List.length_cons]
        omega

theorem C4_build_db_validation
    (inputs : List (String × Except String (List NoteEvent))) :
    (build_db inputs).1 = expectedDb inputs ∧
    (build_db inputs).2 = expectedBad inputs ∧
    (build_db inputs).1.length + (build_db inputs).2.length = inputs.length ∧
    (∀ e ∈ (build_db inputs).1, lengthInvariant e) ∧
    (∀ payload : List SongEntry, load_db payload = payload) := by
  have hchar : build_db inputs = (expectedDb inputs, expectedBad inputs) := by
    rw [build_db, build_db_foldl inputs ([], [])]
    simp
  refine ⟨by rw [hchar], by rw [hchar], ?_, ?_, ?_⟩
  · rw [hchar]
    exact expected_lengths inputs
  · rw [hchar]
    intro e he
    simp only [expectedDb] at he
    obtain ⟨inp, _, hf⟩ := List.mem_filterMap.mp he
    cases hx : inp.2 with
    | error err =>
      rw [hx] at hf
      exact absurd hf (by simp)
    | ok notes =>
      rw [hx] at hf
      dsimp only at hf
      by_cases hlen : (notes_to_rep notes).intervals.length < 2
      · rw [if_pos hlen] at hf
        exact absurd hf (by simp)
      · rw [if_neg hlen] at hf
        obtain ⟨hp, h2, hlt⟩ := rep_lengths notes
        have hN : 2 ≤ notes.length := by
          by_contra hc
          have := (hlt (by omega)).1
          rw [this] at hlen
          exact hlen (by simp)
        obtain ⟨hi, hc, ho⟩ := h2 hN
        have he' : e =
            { song_id := songIdOf inp.1, midi_path := inp.1,
              pitches := (notes_to_rep notes).pitches,
              intervals := (notes_to_rep notes).intervals,
              contour := (notes_to_rep notes).contour,
              ioi := (notes_to_rep notes).ioi } := (Option.some_inj.mp hf).symm
        rw [he']
        unfold lengthInvariant
        rw [if_pos (by simpa [hp] using hN)]
        exact ⟨by simpa [hp] using hi, by simpa [hp] using hc, by simpa [hp] using ho⟩
  · intro payload
    unfold load_db
    have heta : (fun x : SongEntry =>
        ({ song_id := x.song_id, midi_path := x.midi_path, pitches := x.pitches,
           intervals := x.intervals, contour := x.contour, ioi := x.ioi } : SongEntry)) =
        fun x => x := rfl
    rw [heta]
    exact List.map_id' payload

/-- Witness for C4 (amended): a two-input run, one melody long enough, one
extraction failure. -/
theorem C4_witness :
    (build_db [("data/a.mid", .ok [⟨60, 0, 1⟩, ⟨62, 1, 1⟩, ⟨64, 2, 1⟩, ⟨65, 3, 1⟩]),
               ("data/b.mid", .error ("KeyError: no track"))]).1.length +
      (build_db [("data/a.mid", .ok [⟨60, 0, 1⟩, ⟨62, 1, 1⟩, ⟨64, 2, 1⟩, ⟨65, 3, 1⟩]),
                 ("data/b.mid", .error ("KeyError: no track"))]).2.length = 2 ∧
    load_db [⟨"x", "y", [1], [], [], []⟩] = [⟨"x", "y", [1], [], [], []⟩] := by
  have h := C4_build_db_validation
    [("data/a.mid", .ok [⟨60, 0, 1⟩, ⟨62, 1, 1⟩, ⟨64, 2, 1⟩, ⟨65, 3, 1⟩]),
     ("data/b.mid", .error ("KeyError: no track"))]
  exact ⟨h.2.2.1, h.2.2.2.2 _⟩

/-! ## Claim C1 -/

theorem nat_succ_sub_two (k : ℕ) : k + 1 - 2 = k - 1 := rfl

/-- C1: the DP table of `dp_distance` satisfies the spec recurrence.  The
cell indices here are the spec's 1-indexed (i, j) written as (i+1, j+1), so
the 1-indexed sequence accesses query.intervals[i], candidate.intervals[j]
are the 0-indexed `getD i` and `getD j`.  Row 0 is all zeros (free start);
column 0 is unreachable (`⊤`); an interior cell is the minimum of (1)
match/substitute with the local cost (timing only when i, j ≥ 2), (2)
insertion, (3) deletion, (4) the query-side merge when i ≥ 2 (clamped
summed interval, later interval's contour, fixed 0.6 penalty), and (5) the
symmetric candidate-side merge when j ≥ 2. -/
theorem C1_dp_recurrence (lg : ℚ → ℚ) (q s : MelodyRep) (w : Weights) :
    (∀ j, dpD lg q s w 0 j = 0) ∧
    (∀ i, 1 ≤ i → dpD lg q s w i 0 = ⊤) ∧
    (∀ i j : ℕ, i + 1 ≤ q.intervals.length → j + 1 ≤ s.intervals.length →
      dpD lg q s w (i + 1) (j + 1) =
        min (min (min
          (dpD lg q s w i j +
            ((w.w_int * interval_cost (q.intervals.getD i 0) (s.intervals.getD j 0) +
              w.w_cont * contour_cost (q.contour.getD i 0) (s.contour.getD j 0) +
              w.w_time *
                (if 2 ≤ i + 1 ∧ 2 ≤ j + 1 then
                  timing_ratio_cost lg (q.ioi.getD (i - 1) 0) (q.ioi.getD i 0)
                    (s.ioi.getD (j - 1) 0) (s.ioi.getD j 0)
                 else 0) : ℚ) : WithTop ℚ))
          (dpD lg q s w i (j + 1) + ((w.ins_cost : ℚ) : WithTop ℚ)))
          (dpD lg q s w (i + 1) j + ((w.del_cost : ℚ) : WithTop ℚ)))
        (min
          (if 2 ≤ i + 1 then
            dpD lg q s w (i - 1) j +
              ((w.w_int * interval_cost
                  (max (-4) (min 4 (q.intervals.getD (i - 1) 0 + q.intervals.getD i 0)))
                  (s.intervals.getD j 0) +
                w.w_cont * contour_cost (q.contour.getD i 0) (s.contour.getD j 0) +
                6/10 : ℚ) : WithTop ℚ)
           else ⊤)
          (if 2 ≤ j + 1 then
            dpD lg q s w i (j - 1) +
              ((w.w_int * interval_cost (q.intervals.getD i 0)
                  (max (-4) (min 4 (s.intervals.getD (j - 1) 0 + s.intervals.getD j 0))) +
                w.w_cont * contour_cost (q.contour.getD i 0) (s.contour.getD j 0) +
                6/10 : ℚ) : WithTop ℚ)
           else ⊤))) := by
  refine ⟨fun j => by simp [dpD], fun i hi => ?_, fun i j him hjn => ?_⟩
  · obtain ⟨i', rfl⟩ : ∃ k, i = k + 1 := ⟨i - 1, by omega⟩
    simp [dpD]
  · rw [dpD.eq_3]
    unfold localCost
    dsimp only
    simp only [Nat.add_sub_cancel, nat_succ_sub_two]
    rw [min_eq_right (le_top : _ ≤ (⊤ : WithTop ℚ))]
    by_cases h4 : 1 ≤ i <;> by_cases h5 : 1 ≤ j
    · rw [if_pos h4, if_pos h5, if_pos (show 2 ≤ i + 1 by omega),
        if_pos (show 2 ≤ j + 1 by omega), min_assoc]
    · rw [if_pos h4, if_neg h5, if_pos (show 2 ≤ i + 1 by omega),
        if_neg (show ¬ 2 ≤ j + 1 by omega), min_eq_left (le_top : _ ≤ (⊤ : WithTop ℚ))]
    · rw [if_neg h4, if_pos h5, if_neg (show ¬ 2 ≤ i + 1 by omega),
        if_pos (show 2 ≤ j + 1 by omega), min_eq_right (le_top : _ ≤ (⊤ : WithTop ℚ))]
    · rw [if_neg h4, if_neg h5, if_neg (show ¬ 2 ≤ i + 1 by omega),
        if_neg (show ¬ 2 ≤ j + 1 by omega), min_self,
        min_eq_left (le_top : _ ≤ (⊤ : WithTop ℚ))]

/-- A two-interval query representation used by concrete witnesses. -/
def wQrep : MelodyRep := ⟨[60, 61, 60], [1, -1], [1, -1], [1, 2]⟩

/-- A one-interval candidate representation used by concrete witnesses. -/
def wSrep : MelodyRep := ⟨[60, 61], [1], [1], [1]⟩

/-- Witness for C1: the recurrence instantiated at the 1-indexed cell
(2, 1) of a concrete 2-intervals-versus-1-interval comparison. -/
theorem C1_witness :
    1 + 1 ≤ wQrep.intervals.length ∧ 0 + 1 ≤ wSrep.intervals.length ∧
    dpD id wQrep wSrep defaultWeights (1 + 1) (0 + 1) =
      min (min (min
        (dpD id wQrep wSrep defaultWeights 1 0 +
          ((defaultWeights.w_int *
              interval_cost (wQrep.intervals.getD 1 0) (wSrep.intervals.getD 0 0) +
            defaultWeights.w_cont *
              contour_cost (wQrep.contour.getD 1 0) (wSrep.contour.getD 0 0) +
            defaultWeights.w_time *
              (if 2 ≤ 1 + 1 ∧ 2 ≤ 0 + 1 then
                timing_ratio_cost id (wQrep.ioi.getD (1 - 1) 0) (wQrep.ioi.getD 1 0)
                  (wSrep.ioi.getD (0 - 1) 0) (wSrep.ioi.getD 0 0)
               else 0) : ℚ) : WithTop ℚ))
        (dpD id wQrep wSrep defaultWeights 1 (0 + 1) +
          ((defaultWeights.ins_cost : ℚ) : WithTop ℚ)))
        (dpD id wQrep wSrep defaultWeights (1 + 1) 0 +
          ((defaultWeights.del_cost : ℚ) : WithTop ℚ)))
      (min
        (if 2 ≤ 1 + 1 then
          dpD id wQrep wSrep defaultWeights (1 - 1) 0 +
            ((defaultWeights.w_int *
                interval_cost
                  (max (-4) (min 4 (wQrep.intervals.getD (1 - 1) 0 + wQrep.intervals.getD 1 0)))
                  (wSrep.intervals.getD 0 0) +
              defaultWeights.w_cont *
                contour_cost (wQrep.contour.getD 1 0) (wSrep.contour.getD 0 0) +
              6/10 : ℚ) : WithTop ℚ)
         else ⊤)
        (if 2 ≤ 0 + 1 then
          dpD id wQrep wSrep defaultWeights 1 (0 - 1) +
            ((defaultWeights.w_int *
                interval_cost (wQrep.intervals.getD 1 0)
                  (max (-4) (min 4 (wSrep.intervals.getD (0 - 1) 0 + wSrep.intervals.getD 0 0))) +
              defaultWeights.w_cont *
                contour_cost (wQrep.contour.getD 1 0) (wSrep.contour.getD 0 0) +
              6/10 : ℚ) : WithTop ℚ)
         else ⊤)) :=
  ⟨by decide, by decide,
    (C1_dp_recurrence id wQrep wSrep defaultWeights).2.2 1 0 (by decide) (by decide)⟩

/-! ## DP bounds (shared by C2 and C3) -/

theorem interval_cost_nonneg (a b : ℤ) : 0 ≤ interval_cost a b :=
  div_nonneg (abs_nonneg _) (by norm_num)

theorem contour_cost_nonneg (a b : ℤ) : 0 ≤ contour_cost a b := by
  unfold contour_cost
  split_ifs <;> norm_num

theorem timing_ratio_cost_nonneg (lg : ℚ → ℚ) (a b c d : ℚ) :
    0 ≤ timing_ratio_cost lg a b c d := by
  unfold timing_ratio_cost
  exact abs_nonneg _

theorem localCost_nonneg (lg : ℚ → ℚ) (q s : MelodyRep) (w : Weights)
    (hw1 : 0 ≤ w.w_int) (hw2 : 0 ≤ w.w_cont) (hw3 : 0 ≤ w.w_time) (i j : ℕ) :
    0 ≤ localCost lg q s w i j := by
  unfold localCost
  dsimp only
  refine add_nonneg (add_nonneg (mul_nonneg hw1 (interval_cost_nonneg _ _))
    (mul_nonneg hw2 (contour_cost_nonneg _ _))) (mul_nonneg hw3 ?_)
  split_ifs
  · exact timing_ratio_cost_nonneg _ _ _ _ _
  · exact le_refl 0

/-- Any interior DP cell is bounded by the cell above plus the insertion
cost (transition 2 is one of the minimized options). -/
theorem dpD_le_insert (lg : ℚ → ℚ) (q s : MelodyRep) (w : Weights) (i j : ℕ) :
    dpD lg q s w (i + 1) (j + 1) ≤
      dpD lg q s w i (j + 1) + ((w.ins_cost : ℚ) : WithTop ℚ) := by
  rw [dpD.eq_3]
  dsimp only
  have step : ∀ (a : WithTop ℚ) (c : Prop) [Decidable c] (x : WithTop ℚ),
      (if c then min a x else a) ≤ a := by
    intro a c _ x
    split_ifs
    · exact min_le_left _ _
    · exact le_refl _
  refine le_trans (step _ _ _) (le_trans (step _ _ _) ?_)
  exact le_trans (min_le_left _ _) (min_le_right _ _)

/-- Column 1 of the DP is always finite: an all-insertions path exists. -/
theorem dpD_one_ne_top (lg : ℚ → ℚ) (q s : MelodyRep) (w : Weights) (i : ℕ) :
    dpD lg q s w i 1 ≠ ⊤ := by
  induction i with
  | zero => simp [dpD]
  | succ k ih =>
    intro htop
    have h := dpD_le_insert lg q s w k 0
    rw [htop] at h
    have h2 : dpD lg q s w k 1 + ((w.ins_cost : ℚ) : WithTop ℚ) = ⊤ := top_le_iff.mp h
    rcases WithTop.add_eq_top.mp h2 with hx | hx
    · exact ih hx
    · exact WithTop.coe_ne_top hx

/-- Every DP cell is nonnegative when all weights are nonnegative. -/
theorem dpD_nonneg (lg : ℚ → ℚ) (q s : MelodyRep) (w : Weights)
    (hw1 : 0 ≤ w.w_int) (hw2 : 0 ≤ w.w_cont) (hw3 : 0 ≤ w.w_time)
    (hwi : 0 ≤ w.ins_cost) (hwd : 0 ≤ w.del_cost) :
    ∀ i j, 0 ≤ dpD lg q s w i j := by
  have key : ∀ N i j, i + j ≤ N → 0 ≤ dpD lg q s w i j := by
    intro N
    induction N with
    | zero =>
      intro i j hij
      obtain ⟨rfl, rfl⟩ : i = 0 ∧ j = 0 := by omega
      simp [dpD]
    | succ N ih =>
      intro i j hij
      match i, j with
      | 0, j => simp [dpD]
      | i + 1, 0 => simp [dpD]
      | i + 1, j + 1 =>
        rw [dpD.eq_3]
        dsimp only
        have c1 : (0 : WithTop ℚ) ≤
            dpD lg q s w i j + ((localCost lg q s w (i + 1) (j + 1) : ℚ) : WithTop ℚ) :=
          add_nonneg (ih i j (by omega))
            (by exact_mod_cast localCost_nonneg lg q s w hw1 hw2 hw3 (i + 1) (j + 1))
        have c2 : (0 : WithTop ℚ) ≤
            dpD lg q s w i (j + 1) + ((w.ins_cost : ℚ) : WithTop ℚ) :=
          add_nonneg (ih i (j + 1) (by omega)) (by exact_mod_cast hwi)
        have c3 : (0 : WithTop ℚ) ≤
            dpD lg q s w (i + 1) j + ((w.del_cost : ℚ) : WithTop ℚ) :=
          add_nonneg (ih (i + 1) j (by omega)) (by exact_mod_cast hwd)
        have cm : ∀ (a : ℤ) (b : ℤ), (0 : ℚ) ≤ w.w_int * interval_cost a b := fun a b =>
          mul_nonneg hw1 (interval_cost_nonneg _ _)
        have cmerge : ∀ (a b : ℤ) (c d : ℤ),
            (0 : ℚ) ≤ w.w_int * interval_cost a b + w.w_cont * contour_cost c d + 6/10 :=
          fun a b c d => by
            have := mul_nonneg hw2 (contour_cost_nonneg c d)
            have := cm a b
            linarith
        have c4 : (0 : WithTop ℚ) ≤
            dpD lg q s w (i - 1) j +
              ((w.w_int * interval_cost
                  (max (-4) (min 4 (q.intervals.getD (i - 1) 0 + q.intervals.getD i 0)))
                  (s.intervals.getD j 0) +
                w.w_cont * contour_cost (q.contour.getD i 0) (s.contour.getD j 0) +
                6/10 : ℚ) : WithTop ℚ) :=
          add_nonneg (ih (i - 1) j (by omega)) (by exact_mod_cast cmerge _ _ _ _)
        have c5 : (0 : WithTop ℚ) ≤
            dpD lg q s w i (j - 1) +
              ((w.w_int * interval_cost (q.intervals.getD i 0)
                  (max (-4) (min 4 (s.intervals.getD (j - 1) 0 + s.intervals.getD j 0))) +
                w.w_cont * contour_cost (q.contour.getD i 0) (s.contour.getD j 0) +
                6/10 : ℚ) : WithTop ℚ) :=
          add_nonneg (ih i (j - 1) (by omega)) (by exact_mod_cast cmerge _ _ _ _)
        split_ifs <;>
          first
          | exact le_min (le_min (le_min (le_min (le_min le_top c1) c2) c3) c4) c5
          | exact le_min (le_min (le_min (le_min le_top c1) c2) c3) c4
          | exact le_min (le_min (le_min (le_min le_top c1) c2) c3) c5
          | exact le_min (le_min (le_min le_top c1) c2) c3
  intro i j
  exact key (i + j) i j (le_refl _)

/-- Invariant of the final scan fold (similarity.py lines 94-99): after
processing columns 1..n the state is either still the sentinel (all cells
so far infinite) or records the first minimizer among columns 1..n. -/
theorem bestScan_spec (lg : ℚ → ℚ) (q s : MelodyRep) (w : Weights) (m : ℕ) :
    ∀ n : ℕ,
      (bestScan lg q s w m n = (⊤, -1) ∧
        (∀ j, 1 ≤ j → j ≤ n → dpD lg q s w m j = ⊤)) ∨
      (∃ j₀, 1 ≤ j₀ ∧ j₀ ≤ n ∧
        bestScan lg q s w m n = (dpD lg q s w m j₀, (j₀ : ℤ) - 1) ∧
        (∀ j, 1 ≤ j → j ≤ n → dpD lg q s w m j₀ ≤ dpD lg q s w m j) ∧
        (∀ j, 1 ≤ j → j < j₀ → dpD lg q s w m j₀ < dpD lg q s w m j)) := by
  intro n
  induction n with
  | zero =>
    left
    exact ⟨rfl, fun j h1 h2 => absurd (by omega : j = 0) (by omega)⟩
  | succ k ih =>
    have hstep : bestScan lg q s w m (k + 1) =
        (if dpD lg q s w m (k + 1) < (bestScan lg q s w m k).1
         then (dpD lg q s w m (k + 1), (k : ℤ)) else bestScan lg q s w m k) := by
      unfold bestScan
      rw [List.range_succ, List.foldl_append, List.foldl_cons, List.foldl_nil]
    rcases ih with ⟨hst, hall⟩ | ⟨j₀, hj1, hjk, hst, hmin, hfirst⟩
    · rw [hst] at hstep
      dsimp only at hstep
      by_cases hlt : dpD lg q s w m (k + 1) < ⊤
      · right
        refine ⟨k + 1, by omega, le_refl _, ?_, ?_, ?_⟩
        · rw [hstep, if_pos hlt]
          refine Prod.ext rfl ?_
          push_cast
          ring
        · intro j h1 h2
          rcases Nat.lt_or_ge j (k + 1) with hj | hj
          · rw [hall j h1 (by omega)]
            exact le_top
          · have hjeq : j = k + 1 := by omega
            rw [hjeq]
        · intro j h1 hj
          rw [hall j h1 (by omega)]
          exact hlt
      · have hTop : dpD lg q s w m (k + 1) = ⊤ := top_le_iff.mp (not_lt.mp hlt)
        left
        refine ⟨by rw [hstep, if_neg hlt], ?_⟩
        intro j h1 h2
        rcases Nat.lt_or_ge j (k + 1) with hj | hj
        · exact hall j h1 (by omega)
        · have hjeq : j = k + 1 := by omega
          rw [hjeq]
          exact hTop
    · rw [hst] at hstep
      dsimp only at hstep
      by_cases hlt : dpD lg q s w m (k + 1) < dpD lg q s w m j₀
      · right
        refine ⟨k + 1, by omega, le_refl _, ?_, ?_, ?_⟩
        · rw [hstep, if_pos hlt]
          refine Prod.ext rfl ?_
          push_cast
          ring
        · intro j h1 h2
          rcases Nat.lt_or_ge j (k + 1) with hj | hj
          · exact le_of_lt (lt_of_lt_of_le hlt (hmin j h1 (by omega)))
          · have hjeq : j = k + 1 := by omega
            rw [hjeq]
        · intro j h1 hj
          exact lt_of_lt_of_le hlt (hmin j h1 (by omega))
      · right
        refine ⟨j₀, hj1, by omega, by rw [hstep, if_neg hlt], ?_, hfirst⟩
        intro j h1 h2
        rcases Nat.lt_or_ge j (k + 1) with hj | hj
        · exact hmin j h1 (by omega)
        · have hjeq : j = k + 1 := by omega
          rw [hjeq]
          exact not_lt.mp hlt

/-! ## Claim C2 -/

/-- C2: for nonempty interval sequences, the cost `dp_distance` returns is
`D[m][j₀]` — the minimum of `D[m][j]` over j in [1, n], attained first at
j₀ — plus the absolute-pitch tie-breaker exactly when both pitch lists are
non-empty, and the returned end index is `j₀ - 1`. -/
theorem C2_final_cost (lg : ℚ → ℚ) (q s : MelodyRep) (w : Weights)
    (hm : 1 ≤ q.intervals.length) (hn : 1 ≤ s.intervals.length) :
    ∃ j₀, 1 ≤ j₀ ∧ j₀ ≤ s.intervals.length ∧
      (∀ j, 1 ≤ j → j ≤ s.intervals.length →
        dpD lg q s w q.intervals.length j₀ ≤ dpD lg q s w q.intervals.length j) ∧
      (∀ j, 1 ≤ j → j < j₀ →
        dpD lg q s w q.intervals.length j₀ < dpD lg q s w q.intervals.length j) ∧
      (dp_distance lg q s w).cost =
        dpD lg q s w q.intervals.length j₀ +
          (if q.pitches ≠ [] ∧ s.pitches ≠ [] then
            ((w.w_abs * (|meanQ q.pitches - meanQ s.pitches| / 12) : ℚ) : WithTop ℚ)
           else 0) ∧
      (dp_distance lg q s w).end_j = (j₀ : ℤ) - 1 := by
  rcases bestScan_spec lg q s w q.intervals.length s.intervals.length with
    ⟨hst, hall⟩ | ⟨j₀, hj1, hjn, hst, hmin, hfirst⟩
  · exact absurd (hall 1 (le_refl _) hn) (dpD_one_ne_top lg q s w _)
  · refine ⟨j₀, hj1, hjn, hmin, hfirst, ?_, ?_⟩
    · unfold dp_distance
      rw [if_neg (by push_neg; omega)]
      dsimp only
      rw [hst]
      split_ifs with hp
      · rfl
      · exact (add_zero _).symm
    · unfold dp_distance
      rw [if_neg (by push_neg; omega)]
      dsimp only
      rw [hst]

/-- Witness for C2 at a concrete 2-intervals-versus-1-interval pair. -/
theorem C2_witness :
    ∃ j₀, 1 ≤ j₀ ∧ j₀ ≤ wSrep.intervals.length ∧
      (∀ j, 1 ≤ j → j ≤ wSrep.intervals.length →
        dpD id wQrep wSrep defaultWeights wQrep.intervals.length j₀ ≤
          dpD id wQrep wSrep defaultWeights wQrep.intervals.length j) ∧
      (∀ j, 1 ≤ j → j < j₀ →
        dpD id wQrep wSrep defaultWeights wQrep.intervals.length j₀ <
          dpD id wQrep wSrep defaultWeights wQrep.intervals.length j) ∧
      (dp_distance id wQrep wSrep defaultWeights).cost =
        dpD id wQrep wSrep defaultWeights wQrep.intervals.length j₀ +
          (if wQrep.pitches ≠ [] ∧ wSrep.pitches ≠ [] then
            ((defaultWeights.w_abs *
              (|meanQ wQrep.pitches - meanQ wSrep.pitches| / 12) : ℚ) : WithTop ℚ)
           else 0) ∧
      (dp_distance id wQrep wSrep defaultWeights).end_j = (j₀ : ℤ) - 1 :=
  C2_final_cost id wQrep wSrep defaultWeights (by decide) (by decide)

/-! ## Claim C3 -/

/-- C3: `dp_distance` returns the incomparable result (⊤, −1) exactly when
either interval sequence is empty; with both non-empty (default weights)
the cost is a finite nonnegative rational and the end index lies in
[0, n−1]. -/
theorem C3_incomparable_iff (lg : ℚ → ℚ) (q s : MelodyRep) :
    (((dp_distance lg q s defaultWeights).cost = ⊤ ∧
      (dp_distance lg q s defaultWeights).end_j = -1) ↔
      (q.intervals = [] ∨ s.intervals = [])) ∧
    (q.intervals ≠ [] → s.intervals ≠ [] →
      ∃ c : ℚ, (dp_distance lg q s defaultWeights).cost = (c : WithTop ℚ) ∧
        0 ≤ c ∧ 0 ≤ (dp_distance lg q s defaultWeights).end_j ∧
        (dp_distance lg q s defaultWeights).end_j ≤ (s.intervals.length : ℤ) - 1) := by
  have key : q.intervals ≠ [] → s.intervals ≠ [] →
      ∃ c : ℚ, (dp_distance lg q s defaultWeights).cost = (c : WithTop ℚ) ∧
        0 ≤ c ∧ 0 ≤ (dp_distance lg q s defaultWeights).end_j ∧
        (dp_distance lg q s defaultWeights).end_j ≤ (s.intervals.length : ℤ) - 1 := by
    intro hq hs
    have hm : 1 ≤ q.intervals.length := List.length_pos.mpr hq
    have hn : 1 ≤ s.intervals.length := List.length_pos.mpr hs
    rcases bestScan_spec lg q s defaultWeights q.intervals.length s.intervals.length with
      ⟨hst, hall⟩ | ⟨j₀, hj1, hjn, hst, hmin, hfirst⟩
    · exact absurd (hall 1 (le_refl _) hn) (dpD_one_ne_top lg q s defaultWeights _)
    · have hne : dpD lg q s defaultWeights q.intervals.length j₀ ≠ ⊤ := by
        intro htop
        have h1 := hmin 1 (le_refl _) hn
        rw [htop] at h1
        exact dpD_one_ne_top lg q s defaultWeights _ (top_le_iff.mp h1)
      obtain ⟨c₀, hc₀⟩ := WithTop.ne_top_iff_exists.mp hne
      have hc₀nn : (0 : ℚ) ≤ c₀ := by
        have := dpD_nonneg lg q s defaultWeights (by norm_num [defaultWeights])
          (by norm_num [defaultWeights]) (by norm_num [defaultWeights])
          (by norm_num [defaultWeights]) (by norm_num [defaultWeights])
          q.intervals.length j₀
        rw [← hc₀] at this
        exact_mod_cast this
      have hcost : (dp_distance lg q s defaultWeights).cost =
          dpD lg q s defaultWeights q.intervals.length j₀ +
            (if q.pitches ≠ [] ∧ s.pitches ≠ [] then
              ((defaultWeights.w_abs *
                (|meanQ q.pitches - meanQ s.pitches| / 12) : ℚ) : WithTop ℚ)
             else 0) := by
        unfold dp_distance
        rw [if_neg (by push_neg; omega)]
        dsimp only
        rw [hst]
        split_ifs with hp
        · rfl
        · exact (add_zero _).symm
      have hend : (dp_distance lg q s defaultWeights).end_j = (j₀ : ℤ) - 1 := by
        unfold dp_distance
        rw [if_neg (by push_neg; omega)]
        dsimp only
        rw [hst]
      by_cases hp : q.pitches ≠ [] ∧ s.pitches ≠ []
      · refine ⟨c₀ + defaultWeights.w_abs * (|meanQ q.pitches - meanQ s.pitches| / 12),
          ?_, ?_, ?_, ?_⟩
        · rw [hcost, if_pos hp, ← hc₀]
          exact_mod_cast rfl
        · have hpen : (0 : ℚ) ≤
              defaultWeights.w_abs * (|meanQ q.pitches - meanQ s.pitches| / 12) :=
            mul_nonneg (by norm_num [defaultWeights])
              (div_nonneg (abs_nonneg _) (by norm_num))
          linarith
        · rw [hend]; omega
        · rw [hend]; omega
      · refine ⟨c₀, ?_, hc₀nn, ?_, ?_⟩
        · rw [hcost, if_neg hp, add_zero, ← hc₀]
        · rw [hend]; omega
        · rw [hend]; omega
  refine ⟨⟨?_, ?_⟩, key⟩
  · intro ⟨hcost, _⟩
    by_contra hcon
    push_neg at hcon
    obtain ⟨c, hc, _⟩ := key hcon.1 hcon.2
    rw [hcost] at hc
    exact WithTop.top_ne_coe hc
  · intro hempty
    have hguard : q.intervals.length = 0 ∨ s.intervals.length = 0 := by
      rcases hempty with h | h
      · exact Or.inl (by rw [h]; rfl)
      · exact Or.inr (by rw [h]; rfl)
    unfold dp_distance
    rw [if_pos hguard]
    exact ⟨rfl, rfl⟩

/-- Witness for C3: the iff and the nonempty case at a concrete pair. -/
theorem C3_witness :
    (((dp_distance id wQrep wSrep defaultWeights).cost = ⊤ ∧
      (dp_distance id wQrep wSrep defaultWeights).end_j = -1) ↔
      (wQrep.intervals = [] ∨ wSrep.intervals = [])) ∧
    (∃ c : ℚ, (dp_distance id wQrep wSrep defaultWeights).cost = (c : WithTop ℚ) ∧
      0 ≤ c ∧ 0 ≤ (dp_distance id wQrep wSrep defaultWeights).end_j ∧
      (dp_distance id wQrep wSrep defaultWeights).end_j ≤
        (wSrep.intervals.length : ℤ) - 1) := by
  obtain ⟨hiff, hkey⟩ := C3_incomparable_iff id wQrep wSrep
  exact ⟨hiff, hkey (by decide) (by decide)⟩

/-! ## Window-start generation (C7) -/

theorem genStartsAux_eq (win hop d : ℚ) (hhop : 0 < hop) (s : ℚ) :
    genStartsAux win hop d hhop s =
      if s + win ≤ d then s :: genStartsAux win hop d hhop (s + hop) else [] := by
  rw [genStartsAux]
  exact dite_eq_ite

/-- The while loop of app.py lines 104-107 generates exactly the arithmetic
progression s, s+hop, s+2·hop, … for as long as start+win ≤ duration. -/
theorem genStartsAux_spec (win hop d : ℚ) (hhop : 0 < hop) (s : ℚ) :
    ∃ N : ℕ, genStartsAux win hop d hhop s =
      (List.range N).map (fun k : ℕ => s + (k : ℚ) * hop) ∧
      ∀ k : ℕ, (s + (k : ℚ) * hop + win ≤ d ↔ k < N) := by
  have main : ∀ M : ℕ, ∀ s : ℚ, (⌈(d - win - s) / hop⌉ + 1).toNat ≤ M →
      ∃ N : ℕ, genStartsAux win hop d hhop s =
        (List.range N).map (fun k : ℕ => s + (k : ℚ) * hop) ∧
        ∀ k : ℕ, (s + (k : ℚ) * hop + win ≤ d ↔ k < N) := by
    intro M
    induction M with
    | zero =>
      intro s hM
      have hcond : ¬(s + win ≤ d) := by
        intro hc
        have hr : 0 ≤ (d - win - s) / hop := div_nonneg (by linarith) (le_of_lt hhop)
        have hceil := Int.ceil_nonneg hr
        omega
      refine ⟨0, by rw [genStartsAux_eq, if_neg hcond]; rfl, fun k => ?_⟩
      constructor
      · intro hk
        exact absurd hk (by
          have hk0 : (0 : ℚ) ≤ (k : ℚ) * hop :=
            mul_nonneg (by exact_mod_cast Nat.zero_le k) (le_of_lt hhop)
          intro hc
          exact hcond (by linarith))
      · omega
    | succ M ih =>
      intro s hM
      by_cases hc : s + win ≤ d
      · have hr : 0 ≤ (d - win - s) / hop := div_nonneg (by linarith) (le_of_lt hhop)
        have hceil := Int.ceil_nonneg hr
        have hmeas : (⌈(d - win - (s + hop)) / hop⌉ + 1).toNat ≤ M := by
          have hstep : (d - win - (s + hop)) / hop = (d - win - s) / hop - 1 := by
            rw [show d - win - (s + hop) = d - win - s - hop by ring, sub_div,
              div_self (ne_of_gt hhop)]
          rw [hstep, Int.ceil_sub_one]
          omega
        obtain ⟨N', hN'eq, hN'iff⟩ := ih (s + hop) hmeas
        refine ⟨N' + 1, ?_, fun k => ?_⟩
        · rw [genStartsAux_eq, if_pos hc, hN'eq, List.range_succ_eq_map,
            List.map_cons, List.map_map]
          refine congrArg₂ List.cons (by norm_num) (List.map_congr_left fun k _ => ?_)
          simp only [Function.comp_apply]
          push_cast
          ring
        · cases k with
          | zero =>
            simp only [Nat.cast_zero, zero_mul, add_zero]
            exact ⟨fun _ => by omega, fun _ => hc⟩
          | succ k' =>
            have hk := hN'iff k'
            have harith : s + ((k' + 1 : ℕ) : ℚ) * hop = s + hop + (k' : ℚ) * hop := by
              push_cast
              ring
            rw [harith]
            exact ⟨fun h => by have := hk.mp h; omega, fun h => hk.mpr (by omega)⟩
      · refine ⟨0, by rw [genStartsAux_eq, if_neg hc]; rfl, fun k => ?_⟩
        constructor
        · intro hk
          exact absurd hk (by
            have hk0 : (0 : ℚ) ≤ (k : ℚ) * hop :=
              mul_nonneg (by exact_mod_cast Nat.zero_le k) (le_of_lt hhop)
            intro hcc
            exact hc (by linarith))
        · omega
  exact main (⌈(d - win - s) / hop⌉ + 1).toNat s (le_refl _)

/-! ## Scan-state lemmas (C7, C8) -/

/-- The normalized score of one (window, song) comparison (app.py lines
126-127): alignment cost divided by the square root of the window's
interval count. -/
def windowScore (lg : ℚ → ℚ) (sqrtQ : ℕ → ℚ) (q_rep : MelodyRep) (e : SongEntry) :
    WithTop ℚ :=
  divW (dp_distance lg q_rep (entry_to_rep e) defaultWeights).cost
    (sqrtQ q_rep.intervals.length)

theorem scanWindow_cons (lg : ℚ → ℚ) (sqrtQ : ℕ → ℚ) (x : SongEntry)
    (xs : List SongEntry) (q_rep : MelodyRep) (start_s : ℚ) (st : ScanState) :
    scanWindow lg sqrtQ (x :: xs) q_rep start_s st =
      scanWindow lg sqrtQ xs q_rep start_s
        (if windowScore lg sqrtQ q_rep x < st.best_score x.song_id then
          { best_score := fun y => if y = x.song_id then windowScore lg sqrtQ q_rep x
              else st.best_score y
            best_cost := fun y => if y = x.song_id then
              (dp_distance lg q_rep (entry_to_rep x) defaultWeights).cost
              else st.best_cost y
            best_start := fun y => if y = x.song_id then some start_s else st.best_start y
            best_len := fun y => if y = x.song_id then q_rep.intervals.length
              else st.best_len y }
         else st) := by
  unfold scanWindow windowScore
  rw [List.foldl_cons]

theorem scanWindow_not_mem (lg : ℚ → ℚ) (sqrtQ : ℕ → ℚ) (db : List SongEntry)
    (q_rep : MelodyRep) (start_s : ℚ) (sid : String)
    (hs : sid ∉ db.map (·.song_id)) :
    ∀ st : ScanState,
      (scanWindow lg sqrtQ db q_rep start_s st).best_score sid = st.best_score sid := by
  induction db with
  | nil => intro st; rfl
  | cons x xs ih =>
    intro st
    simp only [List.map_cons, List.mem_cons, not_or] at hs
    rw [scanWindow_cons, ih hs.2]
    split_ifs
    · exact if_neg hs.1
    · rfl

theorem scanWindow_mem (lg : ℚ → ℚ) (sqrtQ : ℕ → ℚ) (db : List SongEntry)
    (q_rep : MelodyRep) (start_s : ℚ) (e : SongEntry) (he : e ∈ db)
    (hnd : (db.map (·.song_id)).Nodup) :
    ∀ st : ScanState,
      (scanWindow lg sqrtQ db q_rep start_s st).best_score e.song_id =
        min (st.best_score e.song_id) (windowScore lg sqrtQ q_rep e) := by
  induction db with
  | nil => cases he
  | cons x xs ih =>
    intro st
    simp only [List.map_cons, List.nodup_cons] at hnd
    rcases List.mem_cons.mp he with rfl | hex
    · rw [scanWindow_cons, scanWindow_not_mem lg sqrtQ xs q_rep start_s e.song_id hnd.1]
      split_ifs with h
      · dsimp only
        rw [if_pos rfl]
        exact (min_eq_right (le_of_lt h)).symm
      · exact (min_eq_left (not_lt.mp h)).symm
    · have hne : e.song_id ≠ x.song_id := by
        intro heq
        exact hnd.1 (heq ▸ List.mem_map_of_mem (·.song_id) hex)
      rw [scanWindow_cons, ih hex hnd.2]
      have hst : ∀ st' : ScanState,
          (if windowScore lg sqrtQ q_rep x < st'.best_score x.song_id then
            ({ best_score := fun y => if y = x.song_id then windowScore lg sqrtQ q_rep x
                else st'.best_score y
               best_cost := fun y => if y = x.song_id then
                (dp_distance lg q_rep (entry_to_rep x) defaultWeights).cost
                else st'.best_cost y
               best_start := fun y => if y = x.song_id then some start_s
                else st'.best_start y
               best_len := fun y => if y = x.song_id then q_rep.intervals.length
                else st'.best_len y } : ScanState)
           else st').best_score e.song_id = st'.best_score e.song_id := by
        intro st'
        split_ifs
        · exact if_neg hne
        · rfl
      rw [hst st]

theorem runScan_count_go (lg : ℚ → ℚ) (sqrtQ : ℕ → ℚ) (windowRep : ℚ → MelodyRep)
    (db : List SongEntry) :
    ∀ (starts : List ℚ) (st : ScanState) (u : ℕ),
      (starts.foldl (fun acc start_s =>
          if (windowRep start_s).intervals.length < 12 then acc
          else (scanWindow lg sqrtQ db (windowRep start_s) start_s acc.1, acc.2 + 1))
        (st, u)).2 =
        u + (starts.filter (fun t => 12 ≤ (windowRep t).intervals.length)).length := by
  intro starts
  induction starts with
  | nil => intro st u; simp
  | cons t ts ih =>
    intro st u
    rw [List.foldl_cons]
    by_cases hg : (windowRep t).intervals.length < 12
    · rw [if_pos hg, List.filter_cons_of_neg (by simpa using hg)]
      exact ih st u
    · rw [if_neg hg, List.filter_cons_of_pos (by simpa using not_lt.mp hg), ih]
      simp only [List.length_cons]
      omega

theorem runScan_count (lg : ℚ → ℚ) (sqrtQ : ℕ → ℚ) (windowRep : ℚ → MelodyRep)
    (db : List SongEntry) (starts : List ℚ) :
    (runScan lg sqrtQ windowRep db starts).2 =
      (starts.filter (fun t => 12 ≤ (windowRep t).intervals.length)).length := by
  unfold runScan
  rw [runScan_count_go]
  omega

theorem runScan_go (lg : ℚ → ℚ) (sqrtQ : ℕ → ℚ) (windowRep : ℚ → MelodyRep)
    (db : List SongEntry) (e : SongEntry) (he : e ∈ db)
    (hnd : (db.map (·.song_id)).Nodup) :
    ∀ (starts : List ℚ) (st : ScanState) (u : ℕ),
      ((starts.foldl (fun acc start_s =>
          if (windowRep start_s).intervals.length < 12 then acc
          else (scanWindow lg sqrtQ db (windowRep start_s) start_s acc.1, acc.2 + 1))
        (st, u)).1.best_score e.song_id =
        ((starts.filter (fun t => 12 ≤ (windowRep t).intervals.length)).map
          (fun t => windowScore lg sqrtQ (windowRep t) e)).foldl min
            (st.best_score e.song_id)) ∧
      ((starts.foldl (fun acc start_s =>
          if (windowRep start_s).intervals.length < 12 then acc
          else (scanWindow lg sqrtQ db (windowRep start_s) start_s acc.1, acc.2 + 1))
        (st, u)).2 =
        u + (starts.filter (fun t => 12 ≤ (windowRep t).intervals.length)).length) := by
  intro starts
  induction starts with
  | nil => intro st u; exact ⟨rfl, by simp⟩
  | cons t ts ih =>
    intro st u
    rw [List.foldl_cons]
    by_cases hg : (windowRep t).intervals.length < 12
    · rw [if_pos hg]
      have hfil : (t :: ts).filter (fun t => 12 ≤ (windowRep t).intervals.length) =
          ts.filter (fun t => 12 ≤ (windowRep t).intervals.length) :=
        List.filter_cons_of_neg (by simpa using hg)
      rw [hfil]
      exact ih st u
    · rw [if_neg hg]
      have hfil : (t :: ts).filter (fun t => 12 ≤ (windowRep t).intervals.length) =
          t :: ts.filter (fun t => 12 ≤ (windowRep t).intervals.length) :=
        List.filter_cons_of_pos (by simpa using not_lt.mp hg)
      obtain ⟨ih1, ih2⟩ :=
        ih (scanWindow lg sqrtQ db (windowRep t) t st) (u + 1)
      refine ⟨?_, ?_⟩
      · rw [hfil, List.map_cons, List.foldl_cons, ih1,
          scanWindow_mem lg sqrtQ db (windowRep t) t e he hnd st]
      · rw [hfil, ih2]
        simp only [List.length_cons]
        omega

/-- The per-song final best score of a scan is the minimum (from ⊤) of the
normalized scores of exactly the usable windows; the usable count is the
number of windows passing the 12-interval threshold. -/
theorem runScan_spec (lg : ℚ → ℚ) (sqrtQ : ℕ → ℚ) (windowRep : ℚ → MelodyRep)
    (db : List SongEntry) (starts : List ℚ) (e : SongEntry) (he : e ∈ db)
    (hnd : (db.map (·.song_id)).Nodup) :
    ((runScan lg sqrtQ windowRep db starts).1.best_score e.song_id =
      ((starts.filter (fun t => 12 ≤ (windowRep t).intervals.length)).map
        (fun t => windowScore lg sqrtQ (windowRep t) e)).foldl min ⊤) ∧
    ((runScan lg sqrtQ windowRep db starts).2 =
      (starts.filter (fun t => 12 ≤ (windowRep t).intervals.length)).length) := by
  have h := runScan_go lg sqrtQ windowRep db e he hnd starts initState 0
  unfold runScan
  exact ⟨h.1, by rw [h.2]; omega⟩

/-! ## Claim C7 -/

/-- C7: the scan generates exactly the starts 0, hop, 2·hop, … while
start+win ≤ min(duration, max duration), falling back to the single window
[0]; windows under 12 intervals are skipped entirely while every other
window is scored against every song (the per-song best score is the
min-fold of exactly the usable windows' normalized scores cost/sqrt(L));
and the scan reports the generated-window and usable-window counts. -/
theorem C7_window_scan (lg : ℚ → ℚ) (sqrtQ : ℕ → ℚ) (windowRep : ℚ → MelodyRep)
    (duration0 : ℚ) (db : List SongEntry) (win hop max_sec : ℚ) (hhop : 0 < hop)
    (topk : ℕ) (hnd : (db.map (·.song_id)).Nodup) :
    (∃ N : ℕ,
      genStartsAux win hop (min duration0 max_sec) hhop 0 =
        (List.range N).map (fun k : ℕ => (k : ℚ) * hop) ∧
      (∀ k : ℕ, ((k : ℚ) * hop + win ≤ min duration0 max_sec ↔ k < N))) ∧
    (genStartsAux win hop (min duration0 max_sec) hhop 0 = [] →
      scanStarts win hop (min duration0 max_sec) hhop = [0]) ∧
    (genStartsAux win hop (min duration0 max_sec) hhop 0 ≠ [] →
      scanStarts win hop (min duration0 max_sec) hhop =
        genStartsAux win hop (min duration0 max_sec) hhop 0) ∧
    ((find_windowed_matches lg sqrtQ windowRep duration0 db win hop max_sec hhop
        topk).2.1 =
      (scanStarts win hop (min duration0 max_sec) hhop).length) ∧
    ((find_windowed_matches lg sqrtQ windowRep duration0 db win hop max_sec hhop
        topk).2.2 =
      ((scanStarts win hop (min duration0 max_sec) hhop).filter
        (fun t => 12 ≤ (windowRep t).intervals.length)).length) ∧
    (∀ e ∈ db,
      (runScan lg sqrtQ windowRep db
          (scanStarts win hop (min duration0 max_sec) hhop)).1.best_score e.song_id =
        (((scanStarts win hop (min duration0 max_sec) hhop).filter
            (fun t => 12 ≤ (windowRep t).intervals.length)).map
          (fun t => windowScore lg sqrtQ (windowRep t) e)).foldl min ⊤) := by
  refine ⟨?_, ?_, ?_, ?_, ?_, ?_⟩
  · obtain ⟨N, h1, h2⟩ := genStartsAux_spec win hop (min duration0 max_sec) hhop 0
    refine ⟨N, ?_, fun k => ?_⟩
    · rw [h1]
      exact List.map_congr_left fun k _ => by rw [zero_add]
    · rw [← zero_add ((k : ℚ) * hop)]
      exact h2 k
  · intro hg
    unfold scanStarts
    rw [if_pos hg]
  · intro hg
    unfold scanStarts
    rw [if_neg hg]
  · rfl
  · exact runScan_count lg sqrtQ windowRep db _
  · intro e he
    exact (runScan_spec lg sqrtQ windowRep db _ e he hnd).1

/-! ## Sorting and similarity lemmas (C8) -/

theorem insertDesc_perm (x : RankTuple) (l : List RankTuple) :
    (insertDesc x l).Perm (x :: l) := by
  induction l with
  | nil => exact List.Perm.refl _
  | cons y ys ih =>
    rw [insertDesc]
    split_ifs
    · exact (ih.cons y).trans (List.Perm.swap x y ys)
    · exact List.Perm.refl _

theorem sortDesc_perm (l : List RankTuple) : (sortDesc l).Perm l := by
  induction l with
  | nil => exact List.Perm.refl _
  | cons x xs ih =>
    exact (insertDesc_perm x (sortDesc xs)).trans (ih.cons x)

theorem insertDesc_sorted (x : RankTuple) (l : List RankTuple)
    (hl : l.Sorted (fun a b => b.1 ≤ a.1)) :
    (insertDesc x l).Sorted (fun a b => b.1 ≤ a.1) := by
  induction l with
  | nil => simp [insertDesc]
  | cons y ys ih =>
    rw [List.sorted_cons] at hl
    rw [insertDesc]
    split_ifs with hxy
    · rw [List.sorted_cons]
      refine ⟨fun b hb => ?_, ih hl.2⟩
      rcases List.mem_cons.mp ((insertDesc_perm x ys).mem_iff.mp hb) with rfl | hbys
      · exact le_of_lt hxy
      · exact hl.1 b hbys
    · rw [List.sorted_cons]
      refine ⟨fun b hb => ?_, by rw [List.sorted_cons]; exact hl⟩
      rcases List.mem_cons.mp hb with rfl | hbys
      · exact not_lt.mp hxy
      · exact le_trans (hl.1 b hbys) (not_lt.mp hxy)

theorem sortDesc_sorted (l : List RankTuple) :
    (sortDesc l).Sorted (fun a b => b.1 ≤ a.1) := by
  induction l with
  | nil => exact List.sorted_nil
  | cons x xs ih => exact insertDesc_sorted x (sortDesc xs) ih

theorem insertDesc_filter (x : RankTuple) (l : List RankTuple) (v : ℚ) :
    (insertDesc x l).filter (fun y => y.1 = v) =
      if x.1 = v then x :: l.filter (fun y => y.1 = v)
      else l.filter (fun y => y.1 = v) := by
  induction l with
  | nil =>
    split_ifs with h <;> simp [insertDesc, List.filter_cons, h]
  | cons y ys ih =>
    by_cases hxy : x.1 < y.1
    · rw [show insertDesc x (y :: ys) = y :: insertDesc x ys from by
        rw [insertDesc, if_pos hxy]]
      by_cases hx : x.1 = v
      · have hyv : ¬(y.1 = v) := by
          intro he
          rw [← hx] at he
          exact absurd (he ▸ hxy) (lt_irrefl _)
        rw [List.filter_cons_of_neg (by simpa using hyv), ih, if_pos hx,
          List.filter_cons_of_neg (by simpa using hyv), if_pos hx]
      · by_cases hy : y.1 = v
        · rw [List.filter_cons_of_pos (by simpa using hy), ih, if_neg hx,
            List.filter_cons_of_pos (by simpa using hy), if_neg hx]
        · rw [List.filter_cons_of_neg (by simpa using hy), ih, if_neg hx,
            List.filter_cons_of_neg (by simpa using hy), if_neg hx]
    · rw [show insertDesc x (y :: ys) = x :: y :: ys from by
        rw [insertDesc, if_neg hxy]]
      by_cases hx : x.1 = v
      · rw [List.filter_cons_of_pos (by simpa using hx), if_pos hx]
      · rw [List.filter_cons_of_neg (by simpa using hx), if_neg hx]

theorem sortDesc_filter (l : List RankTuple) (v : ℚ) :
    (sortDesc l).filter (fun y => y.1 = v) = l.filter (fun y => y.1 = v) := by
  induction l with
  | nil => rfl
  | cons x xs ih =>
    show (insertDesc x (sortDesc xs)).filter _ = _
    rw [insertDesc_filter]
    by_cases hx : x.1 = v
    · rw [if_pos hx, ih, List.filter_cons_of_pos (by simpa using hx)]
    · rw [if_neg hx, ih, List.filter_cons_of_neg (by simpa using hx)]

theorem foldl_min_nonneg (l : List (WithTop ℚ)) :
    ∀ init : WithTop ℚ, 0 ≤ init → (∀ x ∈ l, 0 ≤ x) → 0 ≤ l.foldl min init := by
  induction l with
  | nil => intro init hi _; exact hi
  | cons x xs ih =>
    intro init hi hl
    rw [List.foldl_cons]
    exact ih _ (le_min hi (hl x (List.mem_cons_self x xs)))
      (fun y hy => hl y (List.mem_cons_of_mem x hy))

/-- With the default weights the alignment cost is never negative. -/
theorem dp_distance_cost_nonneg (lg : ℚ → ℚ) (q s : MelodyRep) :
    0 ≤ (dp_distance lg q s defaultWeights).cost := by
  unfold dp_distance
  by_cases hguard : q.intervals.length = 0 ∨ s.intervals.length = 0
  · rw [if_pos hguard]
    exact le_top
  · rw [if_neg hguard]
    dsimp only
    have hbs : 0 ≤
        (bestScan lg q s defaultWeights q.intervals.length s.intervals.length).1 := by
      rcases bestScan_spec lg q s defaultWeights q.intervals.length
          s.intervals.length with ⟨hst, _⟩ | ⟨j₀, _, _, hst, _, _⟩
      · rw [hst]; exact le_top
      · rw [hst]
        exact dpD_nonneg lg q s defaultWeights (by norm_num [defaultWeights])
          (by norm_num [defaultWeights]) (by norm_num [defaultWeights])
          (by norm_num [defaultWeights]) (by norm_num [defaultWeights]) _ _
    by_cases hp : q.pitches ≠ [] ∧ s.pitches ≠ []
    · rw [if_pos hp]
      exact add_nonneg hbs (by
        exact_mod_cast mul_nonneg (by norm_num [defaultWeights])
          (div_nonneg (abs_nonneg _) (by norm_num)))
    · rw [if_neg hp]
      exact hbs

theorem divW_nonneg (c : WithTop ℚ) (d : ℚ) (hc : 0 ≤ c) (hd : 0 ≤ d) :
    0 ≤ divW c d := by
  induction c using WithTop.recTopCoe with
  | top => exact le_top
  | coe q0 =>
    have hq : 0 ≤ q0 := by exact_mod_cast hc
    show (0 : WithTop ℚ) ≤ ((q0 / d : ℚ) : WithTop ℚ)
    exact_mod_cast div_nonneg hq hd

theorem simOf_top_eq : simOf ⊤ = 0 := by
  unfold simOf
  rw [if_pos rfl]

theorem simOf_clamp (x : WithTop ℚ) (hx : ((5 : ℚ) : WithTop ℚ) ≤ x) : simOf x = 0 := by
  unfold simOf
  split_ifs with h
  · rfl
  · obtain ⟨c, hc⟩ := WithTop.ne_top_iff_exists.mp h
    rw [← hc] at hx ⊢
    have h5 : (5 : ℚ) ≤ c := by exact_mod_cast hx
    rw [WithTop.untop'_coe]
    rw [max_eq_left (by linarith : 1 - c / 5 ≤ 0)]
    exact zero_mul 100

theorem simOf_bounds (x : WithTop ℚ) (hx : 0 ≤ x) :
    0 ≤ simOf x ∧ simOf x ≤ 100 := by
  unfold simOf
  split_ifs with h
  · norm_num
  · obtain ⟨c, hc⟩ := WithTop.ne_top_iff_exists.mp h
    rw [← hc]
    have hcnn : (0 : ℚ) ≤ c := by
      rw [← hc] at hx
      exact_mod_cast hx
    rw [WithTop.untop'_coe]
    constructor
    · exact mul_nonneg (le_max_left 0 _) (by norm_num)
    · have h1 : max 0 (1 - c / 5) ≤ 1 := by
        apply max_le (by norm_num)
        have : 0 ≤ c / 5 := div_nonneg hcnn (by norm_num)
        linarith
      calc max 0 (1 - c / 5) * 100 ≤ 1 * 100 :=
            mul_le_mul_of_nonneg_right h1 (by norm_num)
        _ = 100 := by norm_num

/-! ## Claim C8 -/

/-- C8: every reported similarity is `max(0, 1 − score/5)·100` clamped to
[0, 100], scores ≥ 5 (and never-compared songs at +∞) map to exactly 0; the
ranked list is the stable descending sort of the per-song tuples (ties keep
the corpus iteration order, stated via filters at every fixed similarity
value), and exactly the top K entries are returned. -/
theorem C8_ranker (lg : ℚ → ℚ) (sqrtQ : ℕ → ℚ) (windowRep : ℚ → MelodyRep)
    (duration0 : ℚ) (db : List SongEntry) (win hop max_sec : ℚ) (hhop : 0 < hop)
    (topk : ℕ) (hnd : (db.map (·.song_id)).Nodup)
    (hsqrt : ∀ L : ℕ, 12 ≤ L → 0 < sqrtQ L) :
    (∀ x : WithTop ℚ, ((5 : ℚ) : WithTop ℚ) ≤ x → simOf x = 0) ∧
    simOf ⊤ = 0 ∧
    (∀ x ∈ sortDesc (rankedListOf
        (runScan lg sqrtQ windowRep db
          (scanStarts win hop (min duration0 max_sec) hhop)).1 db),
      0 ≤ x.1 ∧ x.1 ≤ 100) ∧
    (sortDesc (rankedListOf
        (runScan lg sqrtQ windowRep db
          (scanStarts win hop (min duration0 max_sec) hhop)).1 db)).Sorted
      (fun a b => b.1 ≤ a.1) ∧
    (∀ v : ℚ,
      (sortDesc (rankedListOf
          (runScan lg sqrtQ windowRep db
            (scanStarts win hop (min duration0 max_sec) hhop)).1 db)).filter
        (fun y => y.1 = v) =
      (rankedListOf
          (runScan lg sqrtQ windowRep db
            (scanStarts win hop (min duration0 max_sec) hhop)).1 db).filter
        (fun y => y.1 = v)) ∧
    ((find_windowed_matches lg sqrtQ windowRep duration0 db win hop max_sec hhop
        topk).1 =
      (sortDesc (rankedListOf
          (runScan lg sqrtQ windowRep db
            (scanStarts win hop (min duration0 max_sec) hhop)).1 db)).take topk) ∧
    ((find_windowed_matches lg sqrtQ windowRep duration0 db win hop max_sec hhop
        topk).1.Sorted (fun a b => b.1 ≤ a.1)) ∧
    ((find_windowed_matches lg sqrtQ windowRep duration0 db win hop max_sec hhop
        topk).1.length = min topk db.length) := by
  have hbestnn : ∀ e ∈ db,
      0 ≤ (runScan lg sqrtQ windowRep db
        (scanStarts win hop (min duration0 max_sec) hhop)).1.best_score e.song_id := by
    intro e he
    rw [(runScan_spec lg sqrtQ windowRep db _ e he hnd).1]
    refine foldl_min_nonneg _ ⊤ le_top ?_
    intro x hx
    obtain ⟨t, ht, rfl⟩ := List.mem_map.mp hx
    have hL : 12 ≤ (windowRep t).intervals.length := by
      have := (List.mem_filter.mp ht).2
      simpa using this
    exact divW_nonneg _ _ (dp_distance_cost_nonneg lg _ _) (le_of_lt (hsqrt _ hL))
  have hmem_bounds : ∀ x ∈ sortDesc (rankedListOf
      (runScan lg sqrtQ windowRep db
        (scanStarts win hop (min duration0 max_sec) hhop)).1 db),
      0 ≤ x.1 ∧ x.1 ≤ 100 := by
    intro x hx
    have hx' := (sortDesc_perm _).mem_iff.mp hx
    obtain ⟨e, he, rfl⟩ := List.mem_map.mp hx'
    exact simOf_bounds _ (hbestnn e he)
  refine ⟨fun x => simOf_clamp x, simOf_top_eq, hmem_bounds, sortDesc_sorted _,
    fun v => sortDesc_filter _ v, rfl, ?_, ?_⟩
  · exact (sortDesc_sorted _).sublist (List.take_sublist _ _)
  · show ((sortDesc (rankedListOf _ db)).take topk).length = min topk db.length
    rw [List.length_take, (sortDesc_perm _).length_eq]
    unfold rankedListOf
    rw [List.length_map]

/-- The concrete two-song corpus used by the scan witnesses. -/
def wDb : List SongEntry :=
  [⟨"a", "p/a.mid", [60, 61, 62], [1, 1], [1, 1], [1, 1]⟩,
   ⟨"b", "p/b.mid", [72, 73], [1], [1], [1]⟩]

/-- Witness for C7: the reported counts of a concrete scan. -/
theorem C7_witness :
    ((find_windowed_matches id (fun _ => 1) (fun _ => wQrep) 30 wDb 20 5 120
        (by norm_num) 5).2.1 =
      (scanStarts 20 5 (min 30 120) (by norm_num)).length) ∧
    ((find_windowed_matches id (fun _ => 1) (fun _ => wQrep) 30 wDb 20 5 120
        (by norm_num) 5).2.2 =
      ((scanStarts 20 5 (min 30 120) (by norm_num)).filter
        (fun t => 12 ≤ ((fun _ : ℚ => wQrep) t).intervals.length)).length) := by
  have h := C7_window_scan id (fun _ => 1) (fun _ => wQrep) 30 wDb 20 5 120
    (by norm_num) 5 (by decide)
  exact ⟨h.2.2.2.1, h.2.2.2.2.1⟩

/-- Witness for C8: clamping, sortedness and top-K size of a concrete scan. -/
theorem C8_witness :
    simOf ((6 : ℚ) : WithTop ℚ) = 0 ∧
    ((find_windowed_matches id (fun _ => 1) (fun _ => wQrep) 30 wDb 20 5 120
        (by norm_num) 5).1.Sorted (fun a b => b.1 ≤ a.1)) ∧
    ((find_windowed_matches id (fun _ => 1) (fun _ => wQrep) 30 wDb 20 5 120
        (by norm_num) 5).1.length = min 5 wDb.length) := by
  have h := C8_ranker id (fun _ => 1) (fun _ => wQrep) 30 wDb 20 5 120
    (by norm_num) 5 (by decide) (fun L _ => by norm_num)
  exact ⟨h.1 _ (by exact_mod_cast (by norm_num : (5 : ℚ) ≤ 6)), h.2.2.2.2.2.2.1,
    h.2.2.2.2.2.2.2⟩

end Humming
